import Mathlib

/-!
# Expression calculator: tokens, shunting-yard converter, RPN evaluator

A shallow embedding of `Go/common.go`, `Go/tokenizer.go`, `Go/shuntingyard.go`,
`Go/rpncalc.go` and `Go/prettyprinter.go`.

Conventions of the embedding.

* A Go function returning `(value, error)` is a function into `Except`; the value that Go
  returns next to a non-nil error is dropped (both `ToRPN` and `CalcRPN` discard it).
* `float64` is a type parameter `F` with the four arithmetic operations and the comparison
  with `0.0` that `applyOp` uses (`FloatArith`); every theorem holds for any such
  interpretation, IEEE-754 doubles included. The library functions on `float64` that the
  tokenizer and the printer call (`strconv.ParseFloat`, `strconv.FormatFloat`, `math.Trunc`,
  the conversion to `int64`) are parameters as well (`FloatParse`, `FloatFormat`). The round
  trip of number literals is proved on `F64`, the finite binary64 values with correctly
  rounded `ParseFloat` and shortest-decimal `FormatFloat`.
* A string is the list of its bytes, each byte a natural number.
* `Op` is a rune; it is modelled by `Int`, so that the `default` branches of `precedence`
  and `applyOp` are kept.
* The slices used as stacks (`syState.ops`, `stackState.stack`) are lists whose HEAD is the
  top of the stack, i.e. the list is the slice read from its last index down to index 0.
  The slice used as a queue (`syState.out`) is a list in index order.
-/

namespace KP

/-! ## Shared types (`common.go`) -/

/-- Token kinds `TokNum`, `TokOp`, `TokLPar`, `TokRPar`. -/
inductive TokenKind where
  | TokNum
  | TokOp
  | TokLPar
  | TokRPar
  deriving DecidableEq, Repr

/-- Operators are runes. -/
abbrev Op := Int

/-- Rune `'+'`. -/
def OpAdd : Op := 43
/-- Rune `'-'`. -/
def OpSub : Op := 45
/-- Rune `'*'`. -/
def OpMul : Op := 42
/-- Rune `'/'`. -/
def OpDiv : Op := 47

/-- Go struct `Token`, with `float64` replaced by `F`. -/
structure Token (F : Type) where
  Kind : TokenKind
  Num : F
  Op : Op
  deriving DecidableEq, Repr

/-- The operations on `float64` used by the evaluator: `b + a`, `b - a`, `b * a`, `b / a`
and the test `a == 0.0`. -/
class FloatArith (F : Type) where
  add : F → F → F
  sub : F → F → F
  mul : F → F → F
  div : F → F → F
  isZero : F → Bool

/-- Errors of the three stages. The sentinel errors of `common.go` are constructors; what a
wrapping `fmt.Errorf` formats into the message is the payload. `AtPos i e` is the wrapping
`fmt.Errorf("pos %d: %w", i, e)` of `Tokenize`; `InvalidChar i c` is
`fmt.Errorf("pos %d: %w: %q", i, ErrInvalidChar, string(c))`. -/
inductive Err (F : Type) where
  | MismatchedParens
  | UnaryMinusNotSupp
  | OpInUnaryPos (op : Op)
  | StackUnderflow (op : Op)
  | Leftover (stack : List F)
  | EmptyExpr
  | DivByZero
  | UnknownOperator (op : Op)
  | UnexpectedKindRPN (k : TokenKind)
  | InvalidChar (pos : Nat) (c : Nat)
  | ExpectedDigit
  | InvalidNumber (numStr : List Nat)
  | AtPos (pos : Nat) (e : Err F)
  deriving DecidableEq, Repr

/-- Generic `Reduce`: thread the accumulator through `step`, stop at the first error. -/
def Reduce {T A E : Type} (slice : List T) (init : A) (step : A → T → Except E A) :
    Except E A :=
  match slice with
  | [] => .ok init
  | x :: xs =>
    match step init x with
    | .error e => .error e
    | .ok acc => Reduce xs acc step

/-! ## Shunting yard (`shuntingyard.go`) -/

/-- Category of the previous token. -/
inductive prevKind where
  | prevStart
  | prevValue
  | prevOp
  | prevLPar
  deriving DecidableEq, Repr

/-- Converter state: output queue (index order), operator stack (head = top), previous
category. -/
structure syState (F : Type) where
  out : List (Token F)
  ops : List (Token F)
  prev : prevKind

/-- Precedence table, with its `default` branch. -/
def precedence (op : Op) : Int :=
  if op = OpAdd ∨ op = OpSub then 1
  else if op = OpMul ∨ op = OpDiv then 2
  else -1

/-- The `TokRPar` loop of `stepSY`: pop into the output until a `TokLPar` is popped.
Returns the output, the remaining stack and the flag `found`. -/
def rparLoop {F : Type} : List (Token F) → List (Token F) → List (Token F) × List (Token F) × Bool
  | out, [] => (out, [], false)
  | out, top :: rest =>
    if top.Kind = .TokLPar then (out, rest, true)
    else rparLoop (out ++ [top]) rest

/-- The `TokOp` loop of `stepSY`: pop operators of precedence at least that of `tok`,
stopping at a `TokLPar`. -/
def opLoop {F : Type} (tok : Token F) : List (Token F) → List (Token F) → List (Token F) × List (Token F)
  | out, [] => (out, [])
  | out, top :: rest =>
    if top.Kind = .TokLPar then (out, top :: rest)
    else if precedence top.Op ≥ precedence tok.Op then opLoop tok (out ++ [top]) rest
    else (out, top :: rest)

/-- One step of the converter. The `default` branch of the Go switch is unreachable for the
four token kinds. -/
def stepSY {F : Type} (st : syState F) (tok : Token F) : Except (Err F) (syState F) :=
  match tok.Kind with
  | .TokNum => .ok { out := st.out ++ [tok], ops := st.ops, prev := .prevValue }
  | .TokLPar => .ok { out := st.out, ops := tok :: st.ops, prev := .prevLPar }
  | .TokRPar =>
    match rparLoop st.out st.ops with
    | (out, ops, found) =>
      if found = false then .error .MismatchedParens
      else .ok { out := out, ops := ops, prev := .prevValue }
  | .TokOp =>
    if st.prev = .prevStart ∨ st.prev = .prevOp ∨ st.prev = .prevLPar then
      if tok.Op = OpSub then .error .UnaryMinusNotSupp
      else .error (.OpInUnaryPos tok.Op)
    else
      match opLoop tok st.out st.ops with
      | (out, ops) => .ok { out := out, ops := tok :: ops, prev := .prevOp }

/-- The drain loop at the end of `ToRPN`. -/
def drainOps {F : Type} : List (Token F) → List (Token F) → Except (Err F) (List (Token F))
  | out, [] => .ok out
  | out, top :: rest =>
    if top.Kind = .TokLPar ∨ top.Kind = .TokRPar then .error .MismatchedParens
    else drainOps (out ++ [top]) rest

/-- Initial converter state. -/
def syInit (F : Type) : syState F := { out := [], ops := [], prev := .prevStart }

/-- Infix to postfix. -/
def ToRPN {F : Type} (tokens : List (Token F)) : Except (Err F) (List (Token F)) :=
  match Reduce tokens (syInit F) stepSY with
  | .error e => .error e
  | .ok st => drainOps st.out st.ops

/-! ## RPN calculator (`rpncalc.go`) -/

/-- Evaluator state: the value stack (head = top). -/
structure stackState (F : Type) where
  stack : List F

/-- Apply a binary operator to left operand `b` and right operand `a`. -/
def applyOp {F : Type} [FloatArith F] (op : Op) (b a : F) : Except (Err F) F :=
  if op = OpAdd then .ok (FloatArith.add b a)
  else if op = OpSub then .ok (FloatArith.sub b a)
  else if op = OpMul then .ok (FloatArith.mul b a)
  else if op = OpDiv then
    if FloatArith.isZero a = true then .error .DivByZero
    else .ok (FloatArith.div b a)
  else .error (.UnknownOperator op)

/-- One step of the evaluator. -/
def stepRPN {F : Type} [FloatArith F] (st : stackState F) (tok : Token F) :
    Except (Err F) (stackState F) :=
  match tok.Kind with
  | .TokNum => .ok { stack := tok.Num :: st.stack }
  | .TokOp =>
    match st.stack with
    | a :: b :: rest =>
      match applyOp tok.Op b a with
      | .error e => .error e
      | .ok val => .ok { stack := val :: rest }
    | _ => .error (.StackUnderflow tok.Op)
  | k => .error (.UnexpectedKindRPN k)

/-- Initial evaluator state: the empty stack. -/
def rpnInit (F : Type) : stackState F := { stack := [] }

/-- Postfix evaluation. `st.stack.reverse` is the slice `st.stack` in index order. -/
def CalcRPN {F : Type} [FloatArith F] (tokens : List (Token F)) : Except (Err F) F :=
  if tokens.length = 0 then .error .EmptyExpr
  else
    match Reduce tokens (rpnInit F) stepRPN with
    | .error e => .error e
    | .ok st =>
      match st.stack with
      | [v] => .ok v
      | _ => .error (.Leftover st.stack.reverse)

/-- Exact rational arithmetic as an interpretation of the arithmetic interface; it agrees
with `float64` wherever the operands and the result are exactly representable. -/
instance ratArith : FloatArith ℚ where
  add := fun b a => b + a
  sub := fun b a => b - a
  mul := fun b a => b * a
  div := fun b a => b / a
  isZero := fun a => decide (a = 0)

/-- Number token, as the Go literal `Token{Kind: TokNum, Num: x}`. -/
def numTok (x : ℚ) : Token ℚ := { Kind := .TokNum, Num := x, Op := 0 }
/-- Operator token, as the Go literal `Token{Kind: TokOp, Op: op}`. -/
def opTok (op : Op) : Token ℚ := { Kind := .TokOp, Num := 0, Op := op }
/-- Left parenthesis token `Token{Kind: TokLPar}`. -/
def lparTok : Token ℚ := { Kind := .TokLPar, Num := 0, Op := 0 }
/-- Right parenthesis token `Token{Kind: TokRPar}`. -/
def rparTok : Token ℚ := { Kind := .TokRPar, Num := 0, Op := 0 }

/-! ## Vocabulary of the claims -/

/-- Number of tokens of kind `k` in `ts`. -/
def countKind {F : Type} (k : TokenKind) (ts : List (Token F)) : Nat :=
  ts.countP (fun t => decide (t.Kind = k))

/-- Kind of the token at index `i`, if any. -/
def kindAt {F : Type} (ts : List (Token F)) (i : Nat) : Option TokenKind :=
  ts[i]?.map Token.Kind

/-- Balanced parentheses: every leading segment has at least as many `TokLPar` as `TokRPar`
tokens, and the totals are equal. -/
def Balanced {F : Type} (ts : List (Token F)) : Prop :=
  (∀ n, n ≤ ts.length →
      countKind .TokRPar (ts.take n) ≤ countKind .TokLPar (ts.take n)) ∧
    countKind .TokLPar ts = countKind .TokRPar ts

/-- Unbalanced parentheses: some leading segment has more `TokRPar` than `TokLPar` tokens,
or the sequence has more `TokLPar` than `TokRPar` tokens in total. -/
def Unbalanced {F : Type} (ts : List (Token F)) : Prop :=
  (∃ n, n ≤ ts.length ∧
      countKind .TokLPar (ts.take n) < countKind .TokRPar (ts.take n)) ∨
    countKind .TokRPar ts < countKind .TokLPar ts

/-- Valid binary operator placement: no `TokOp` token is first, directly after another
`TokOp`, or directly after a `TokLPar`. -/
def BinaryPlacement {F : Type} (ts : List (Token F)) : Prop :=
  ∀ i, i < ts.length → kindAt ts i = some .TokOp →
    i ≠ 0 ∧ kindAt ts (i - 1) ≠ some .TokOp ∧ kindAt ts (i - 1) ≠ some .TokLPar

instance {F : Type} (ts : List (Token F)) : Decidable (Balanced ts) := by
  unfold Balanced; infer_instance

instance {F : Type} (ts : List (Token F)) : Decidable (Unbalanced ts) := by
  unfold Unbalanced; infer_instance

instance {F : Type} (ts : List (Token F)) : Decidable (BinaryPlacement ts) := by
  unfold BinaryPlacement; infer_instance

/-! ## Auxiliary notions for the proofs -/

/-- Category recorded by `stepSY` after a token of kind `k`. -/
def prevOf : TokenKind → prevKind
  | .TokNum => .prevValue
  | .TokOp => .prevOp
  | .TokLPar => .prevLPar
  | .TokRPar => .prevValue

/-- No operator of `ts` is met while the previous category is not `prevValue`, starting
from category `p`. -/
def placedFrom {F : Type} (p : prevKind) : List (Token F) → Prop
  | [] => True
  | t :: ts => (t.Kind = .TokOp → p = .prevValue) ∧ placedFrom (prevOf t.Kind) ts

/-- Parenthesis depth after scanning `ts` from depth `d`; `none` when a `TokRPar` is met at
depth `0`. -/
def scanDepth {F : Type} : Nat → List (Token F) → Option Nat
  | d, [] => some d
  | d, t :: ts =>
    match t.Kind with
    | .TokLPar => scanDepth (d + 1) ts
    | .TokRPar => if d = 0 then none else scanDepth (d - 1) ts
    | _ => scanDepth d ts

/-- Number of stack entries that are not `TokLPar`. -/
def nonLPar {F : Type} (ops : List (Token F)) : Nat :=
  ops.countP (fun t => decide (t.Kind ≠ .TokLPar))

/-! ## Expression trees -/

/-- The value of a `float64` field that a Go composite literal leaves unset. -/
class FloatZero (F : Type) where
  zero : F

/-- Exact rationals: the unset value is `0`. -/
instance ratZero : FloatZero ℚ where
  zero := 0

/-- Go literal `Token{Kind: TokNum, Num: x}`. -/
def mkNum {F : Type} (x : F) : Token F := { Kind := .TokNum, Num := x, Op := 0 }
/-- Go literal `Token{Kind: TokOp, Op: op}`. -/
def mkOp {F : Type} [FloatZero F] (op : Op) : Token F :=
  { Kind := .TokOp, Num := FloatZero.zero, Op := op }
/-- Go literal `Token{Kind: TokLPar}`. -/
def mkLPar {F : Type} [FloatZero F] : Token F :=
  { Kind := .TokLPar, Num := FloatZero.zero, Op := 0 }
/-- Go literal `Token{Kind: TokRPar}`. -/
def mkRPar {F : Type} [FloatZero F] : Token F :=
  { Kind := .TokRPar, Num := FloatZero.zero, Op := 0 }

/-- The four binary operators. -/
inductive BinOp where
  | add
  | sub
  | mul
  | div
  deriving DecidableEq, Repr

/-- Rune of a binary operator. -/
def BinOp.rune : BinOp → Op
  | .add => OpAdd
  | .sub => OpSub
  | .mul => OpMul
  | .div => OpDiv

/-- Expression tree: a number leaf or a binary node. -/
inductive Expr (F : Type) where
  | num (n : F)
  | node (op : BinOp) (l r : Expr F)

/-- Fully parenthesised in-order token list of a tree. -/
def Expr.inorderToks {F : Type} [FloatZero F] : Expr F → List (Token F)
  | .num n => [mkNum n]
  | .node op l r =>
    [mkLPar] ++ Expr.inorderToks l ++ [mkOp op.rune] ++ Expr.inorderToks r ++ [mkRPar]

/-- Post-order token list of a tree. -/
def Expr.postorderToks {F : Type} [FloatZero F] : Expr F → List (Token F)
  | .num n => [mkNum n]
  | .node op l r => Expr.postorderToks l ++ Expr.postorderToks r ++ [mkOp op.rune]

/-- Arithmetic meaning of a binary operator, left operand first. -/
def BinOp.apply {F : Type} [FloatArith F] : BinOp → F → F → F
  | .add, b, a => FloatArith.add b a
  | .sub, b, a => FloatArith.sub b a
  | .mul, b, a => FloatArith.mul b a
  | .div, b, a => FloatArith.div b a

/-- Recursive value of a tree. -/
def Expr.value {F : Type} [FloatArith F] : Expr F → F
  | .num n => n
  | .node op l r => op.apply (Expr.value l) (Expr.value r)

/-- No division node of the tree has a right subtree whose value compares equal to `0.0`. -/
def Expr.divSafe {F : Type} [FloatArith F] : Expr F → Prop
  | .num _ => True
  | .node op l r =>
    (op = .div → FloatArith.isZero (Expr.value r) = false) ∧
      Expr.divSafe l ∧ Expr.divSafe r

/-- Tokens that are not parentheses, in order. -/
def dropParens {F : Type} (ts : List (Token F)) : List (Token F) :=
  ts.filter (fun t => decide (t.Kind ≠ .TokLPar ∧ t.Kind ≠ .TokRPar))

/-- Number tokens, in order. -/
def numbersOf {F : Type} (ts : List (Token F)) : List (Token F) :=
  ts.filter (fun t => decide (t.Kind = .TokNum))

/-! ## Tokenizer (`tokenizer.go`)

The input string is the list of its bytes. `Tokenize` keeps the index `i` of the Go loop for
the error positions and works on the unread bytes `expr[i:]`. -/

/-- `strconv.ParseFloat(s, 64)`: `none` when it returns an error. -/
class FloatParse (F : Type) where
  parseFloat : List Nat → Option F

/-- Bytes `' '`, `'\t'`, `'\n'`, `'\r'`. -/
def isSpace (c : Nat) : Bool := c = 32 || c = 9 || c = 10 || c = 13

/-- Bytes `'0'` to `'9'`. -/
def isDigit (c : Nat) : Bool := decide (48 ≤ c ∧ c ≤ 57)

/-- Bytes `'+'`, `'-'`, `'*'`, `'/'`. -/
def isOpByte (c : Nat) : Bool := c = 43 || c = 45 || c = 42 || c = 47

/-- Function `readNumber(s, start)` on the bytes `s[start:]`. It returns the token and the
number `next - start` of bytes read. Byte `46` is `'.'`. -/
def readNumber {F : Type} [FloatParse F] (s : List Nat) : Except (Err F) (Token F × Nat) :=
  let intPart := s.takeWhile isDigit
  let afterInt := s.dropWhile isDigit
  let dot : Bool := decide (afterInt.head? = some 46)
  let afterDot := if dot then afterInt.tail else afterInt
  let fracPart := afterDot.takeWhile isDigit
  if dot = true ∧ fracPart = [] then .error .ExpectedDigit
  else
    let numStr := if dot then intPart ++ [46] ++ fracPart else intPart
    match FloatParse.parseFloat numStr with
    | none => .error (.InvalidNumber numStr)
    | some val => .ok (mkNum val, intPart.length + (if dot then 1 else 0) + fracPart.length)

/-- The loop of `Tokenize` at index `i`, with unread bytes `expr[i:]` and tokens `toks`.
The first argument bounds the number of iterations; every iteration reads at least one
byte, so the bound `len(expr) - i` is never exhausted (`tokenizeLoop_fuel`). Bytes `40` and
`41` are `'('` and `')'`. -/
def tokenizeLoop {F : Type} [FloatZero F] [FloatParse F] :
    Nat → Nat → List Nat → List (Token F) → Except (Err F) (List (Token F))
  | _, _, [], toks => .ok toks
  | 0, _, _ :: _, toks => .ok toks
  | fuel + 1, i, c :: cs, toks =>
    if isSpace c then tokenizeLoop fuel (i + 1) cs toks
    else if c = 40 then tokenizeLoop fuel (i + 1) cs (toks ++ [mkLPar])
    else if c = 41 then tokenizeLoop fuel (i + 1) cs (toks ++ [mkRPar])
    else if isOpByte c then tokenizeLoop fuel (i + 1) cs (toks ++ [mkOp (c : Int)])
    else if isDigit c then
      match readNumber (c :: cs) with
      | .error e => .error (.AtPos i e)
      | .ok (tok, n) => tokenizeLoop fuel (i + n) ((c :: cs).drop n) (toks ++ [tok])
    else .error (.InvalidChar i c)

/-- Text to tokens. -/
def Tokenize {F : Type} [FloatZero F] [FloatParse F] (expr : List Nat) :
    Except (Err F) (List (Token F)) :=
  tokenizeLoop expr.length 0 expr []

/-- The loop of `Tokenize` with the bound set to the number of unread bytes. -/
def tokenizeFrom {F : Type} [FloatZero F] [FloatParse F] (i : Nat) (rest : List Nat)
    (toks : List (Token F)) : Except (Err F) (List (Token F)) :=
  tokenizeLoop rest.length i rest toks

/-- Natural number written by a run of decimal digit bytes. -/
def digitsValue (ds : List Nat) : Nat :=
  ds.foldl (fun acc d => 10 * acc + (d - 48)) 0

/-- Range check of `strconv.ParseFloat`: it fails with `ErrRange` when the value is not
below `2^1024 - 2^970`, the midpoint between the largest `float64` and `2^1024`. -/
def ratRange (v : ℚ) : Option ℚ :=
  if v < 2 ^ 1024 - 2 ^ 970 then some v else none

/-- Decimal value of a literal `digits` or `digits.digits`, as `strconv.ParseFloat` reads
it when the value is exactly representable; `none` on other strings and when the value is
out of range. Rounding is not modelled. -/
def ratParse (s : List Nat) : Option ℚ :=
  let intPart := s.takeWhile isDigit
  match s.dropWhile isDigit with
  | [] => if intPart = [] then none else ratRange (digitsValue intPart : ℚ)
  | c :: fracPart =>
    if c = 46 ∧ intPart ≠ [] ∧ fracPart ≠ [] ∧ fracPart.all isDigit = true then
      ratRange ((digitsValue intPart : ℚ) + (digitsValue fracPart : ℚ) / 10 ^ fracPart.length)
    else none

/-- Exact rationals: literals are read by `ratParse`. -/
instance ratFloatParse : FloatParse ℚ where
  parseFloat := ratParse

/-! ## Pretty printing (`prettyprinter.go`) -/

/-- The `float64` operations of `formatNumber`: the test `x == math.Trunc(x)`, the
conversion `int64(x)` and `strconv.FormatFloat(x, 'f', -1, 64)`. -/
class FloatFormat (F : Type) where
  isIntegral : F → Bool
  toInt64 : F → Int
  formatFloat : F → List Nat

/-- Decimal digits of a natural number, most significant first, as bytes. -/
def natDigits (n : Nat) : List Nat :=
  if n = 0 then [48] else (Nat.digits 10 n).reverse.map (fun d => d + 48)

/-- `strconv.FormatInt(n, 10)`; byte `45` is `'-'`. -/
def formatInt (n : Int) : List Nat :=
  if n < 0 then 45 :: natDigits (-n).toNat else natDigits n.toNat

/-- Rendering of a number. -/
def formatNumber {F : Type} [FloatFormat F] (x : F) : List Nat :=
  if FloatFormat.isIntegral x = true then formatInt (FloatFormat.toInt64 x)
  else FloatFormat.formatFloat x

/-- The conversion `string(rune(op))`: the UTF-8 encoding of the rune, and of `U+FFFD` for
an invalid rune. -/
def runeString (r : Int) : List Nat :=
  if r < 0 ∨ 1114111 < r ∨ (55296 ≤ r ∧ r ≤ 57343) then [239, 191, 189]
  else
    let n := r.toNat
    if n < 128 then [n]
    else if n < 2048 then [192 + n / 64, 128 + n % 64]
    else if n < 65536 then [224 + n / 4096, 128 + n / 64 % 64, 128 + n % 64]
    else [240 + n / 262144, 128 + n / 4096 % 64, 128 + n / 64 % 64, 128 + n % 64]

/-- The part that `FormatTokens` appends for one token. -/
def formatPart {F : Type} [FloatFormat F] (t : Token F) : List Nat :=
  match t.Kind with
  | .TokNum => formatNumber t.Num
  | .TokOp => runeString t.Op
  | .TokLPar => [40]
  | .TokRPar => [41]

/-- Rendering of a token sequence: the parts joined by blanks. -/
def FormatTokens {F : Type} [FloatFormat F] (tokens : List (Token F)) : List Nat :=
  List.intercalate [32] (tokens.map formatPart)

/-- A number literal: a non-empty run of digits, optionally followed by `'.'` and a
non-empty run of digits. -/
def NumberLiteral (s : List Nat) : Prop :=
  ∃ d1, d1 ≠ [] ∧ (∀ x ∈ d1, isDigit x = true) ∧
    (s = d1 ∨ ∃ d2, d2 ≠ [] ∧ (∀ x ∈ d2, isDigit x = true) ∧ s = d1 ++ [46] ++ d2)

/-! ## A model of `float64` for the round trip of number literals

The round trip of a number through `formatNumber` and `Tokenize` depends on what
`strconv.ParseFloat`, `strconv.FormatFloat`, `math.Trunc` and the conversion to `int64`
compute. `F64` interprets them on the finite values of `float64`, kept as exact rationals;
infinities, NaN and the negative zero are not values of `F64` (the tokenizer never produces
them). -/

/-- Finite `float64` value, as the rational number it denotes. -/
structure F64 where
  val : ℚ

/-- Exponent of the unit in the last place of the binary64 format at `q`: the 53-bit
significand of a normal number, and `2^(-1074)` for the subnormal numbers. -/
def ulpExp (q : ℚ) : ℤ := max (Int.log 2 q - 52) (-1074)

/-- Rounding to the nearest integer, ties to the even one. -/
def roundHalfEven (r : ℚ) : ℤ :=
  if r - ⌊r⌋ < 1 / 2 then ⌊r⌋
  else if 1 / 2 < r - ⌊r⌋ then ⌊r⌋ + 1
  else if ⌊r⌋ % 2 = 0 then ⌊r⌋ else ⌊r⌋ + 1

/-- Rounding of a non-negative rational to the nearest binary64 value, ties to even
(IEEE 754), before the range check. -/
def round64 (q : ℚ) : ℚ := (roundHalfEven (q / 2 ^ ulpExp q) : ℚ) * 2 ^ ulpExp q

/-- The rational `q` is a multiple of the unit in the last place at `q`, that is, a binary64
value when it is not negative and below `2^1024`. -/
def OnGrid (q : ℚ) : Prop := ∃ n : ℤ, q = n * 2 ^ ulpExp q

/-- Value that `strconv.ParseFloat` returns for the decimal value `v`: the nearest binary64
value, and `none` (`ErrRange`) when that is not below `2^1024`. -/
def parseValue (v : ℚ) : Option ℚ :=
  if round64 v < 2 ^ 1024 then some (round64 v) else none

/-- Decimal value of a literal `digits` or `digits.digits`; `none` on other strings. -/
def decimalValue (s : List Nat) : Option ℚ :=
  let intPart := s.takeWhile isDigit
  match s.dropWhile isDigit with
  | [] => if intPart = [] then none else some (digitsValue intPart : ℚ)
  | c :: fracPart =>
    if c = 46 ∧ intPart ≠ [] ∧ fracPart ≠ [] ∧ fracPart.all isDigit = true then
      some ((digitsValue intPart : ℚ) + (digitsValue fracPart : ℚ) / 10 ^ fracPart.length)
    else none

/-- Modelled from the spec: `strconv.ParseFloat(s, 64)` on the literals that `readNumber`
assembles ("parse it as a floating-point number", a 64-bit floating-point value): the
decimal value of the literal rounded to the nearest binary64 value, an error when it is out
of range. -/
def parse64 (s : List Nat) : Option F64 :=
  match decimalValue s with
  | none => none
  | some v =>
    match parseValue v with
    | none => none
    | some r => some ⟨r⟩

/-- The digits of `n`, padded with zeros on the left to exactly `w` digits (the last `w`
digits when `n` has more). -/
def padDigits : Nat → Nat → List Nat
  | 0, _ => []
  | w + 1, n => padDigits w (n / 10) ++ [48 + n % 10]

/-- The decimal number `j * 10^t` in the format `'f'`: digits, and a point followed by `-t`
digits when `t` is negative. -/
def renderDecimal (j : Nat) (t : Int) : List Nat :=
  if 0 ≤ t then natDigits (j * 10 ^ t.toNat)
  else natDigits (j / 10 ^ (-t).toNat) ++ [46] ++ padDigits (-t).toNat (j % 10 ^ (-t).toNat)

/-- The decimal `j * 10^t` is read back by `ParseFloat` as `x`. -/
def candidateOk (x : ℚ) (j : Nat) (t : Int) : Bool :=
  decide (parseValue ((j : ℚ) * 10 ^ t) = some x)

/-- Number of fractional decimal digits of the smallest positive binary64 value
`2^(-1074)`; no binary64 value has more. -/
def fracLimit : Nat := 1074

/-- The first of the candidates `a`, `b` (times `10^t`) that is read back as `x`. -/
def firstOk (x : ℚ) (t : Int) (a b : Nat) : Option Nat :=
  if candidateOk x a t = true then some a
  else if candidateOk x b t = true then some b
  else none

/-- A multiple of `10^t` next to `x` that is read back as `x`, the nearer one first. -/
def pickCandidate (x : ℚ) (t : Int) : Option Nat :=
  let lo := ⌊x / 10 ^ t⌋₊
  if x - (lo : ℚ) * 10 ^ t ≤ ((lo : ℚ) + 1) * 10 ^ t - x then firstOk x t lo (lo + 1)
  else firstOk x t (lo + 1) lo

/-- The shortest decimal `j * 10^t` that is read back as `x`: the search goes from the
largest exponent `t = i - 1074` down, and ends with the exact expansion of `x` at
`t = -1074`. -/
def findDecimal (x : ℚ) : Nat → Nat × Int
  | 0 => (⌊x * 10 ^ fracLimit⌋₊, -(fracLimit : Int))
  | i + 1 =>
    match pickCandidate x ((i : Int) + 1 - fracLimit) with
    | some j => (j, (i : Int) + 1 - fracLimit)
    | none => findDecimal x i

/-- Modelled from the spec: `strconv.FormatFloat(x, 'f', -1, 64)`, the "minimal decimal
representation" of the value: the decimal with the fewest digits that `ParseFloat` reads
back as `x`, without exponent, with a leading `'-'` for a negative value. The search starts
at `10^309`, above every binary64 value. -/
def formatFloat64 (x : F64) : List Nat :=
  if x.val < 0 then
    45 :: renderDecimal (findDecimal (-x.val) 1383).1 (findDecimal (-x.val) 1383).2
  else renderDecimal (findDecimal x.val 1383).1 (findDecimal x.val 1383).2

/-- Integer part of a rational, rounded towards zero, as `math.Trunc` and the conversion to
`int64` do. -/
def truncQ (q : ℚ) : Int := Int.tdiv q.num q.den

/-- The unset value of a `float64` field is `0`. -/
instance f64Zero : FloatZero F64 where
  zero := ⟨0⟩

/-- Literals are read by `parse64`. -/
instance f64Parse : FloatParse F64 where
  parseFloat := parse64

/-- The test `x == math.Trunc(x)`, the conversion `int64(x)` and `FormatFloat`. Out of the
range of `int64`, where Go leaves the result of the conversion to the implementation, it is
the value `-2^63` that amd64 produces. -/
instance f64Format : FloatFormat F64 where
  isIntegral := fun x => decide (((truncQ x.val : Int) : ℚ) = x.val)
  toInt64 := fun x =>
    if -2 ^ 63 ≤ truncQ x.val ∧ truncQ x.val < 2 ^ 63 then truncQ x.val else -2 ^ 63
  formatFloat := formatFloat64

/-- One iteration of the loop of `Tokenize` on the non-empty unread input `s` at index `i`:
the tokens it appends (none or one) and the number of bytes it reads. -/
def lexeme {F : Type} [FloatZero F] [FloatParse F] (i : Nat) (s : List Nat) :
    Except (Err F) (List (Token F) × Nat) :=
  match s with
  | [] => .ok ([], 0)
  | c :: cs =>
    if isSpace c then .ok ([], 1)
    else if c = 40 then .ok ([mkLPar], 1)
    else if c = 41 then .ok ([mkRPar], 1)
    else if isOpByte c then .ok ([mkOp (c : Int)], 1)
    else if isDigit c then
      match readNumber (c :: cs) with
      | .error e => .error (.AtPos i e)
      | .ok (tok, n) => .ok ([tok], n)
    else .error (.InvalidChar i c)

/-- Condition under which the tokens of `s` are not affected by appending `u`: if `s` ends
with a digit, `u` does not start with a digit or with `'.'`. -/
def Boundary (s u : List Nat) : Prop :=
  (∃ a, s.getLast? = some a ∧ isDigit a = true) →
    ∀ b, u.head? = some b → isDigit b = false ∧ b ≠ 46

/-! ## Lemmas on `Reduce` and the loops of the converter -/

theorem Reduce_append {T A E : Type} (step : A → T → Except E A) (xs ys : List T) :
    ∀ init : A, Reduce (xs ++ ys) init step =
      match Reduce xs init step with
      | .error e => .error e
      | .ok acc => Reduce ys acc step := by
  induction xs with
  | nil => intro init; simp [Reduce]
  | cons x xs ih =>
    intro init
    simp only [List.cons_append, Reduce]
    cases step init x with
    | error e => simp
    | ok acc => simpa using ih acc

theorem Reduce_append_error {T A E : Type} (step : A → T → Except E A)
    (pre rest : List T) (x : T) (init acc : A) (e : E)
    (hpre : Reduce pre init step = .ok acc) (hx : step acc x = .error e) :
    Reduce (pre ++ x :: rest) init step = .error e := by
  rw [Reduce_append, hpre]
  simp [Reduce, hx]

theorem rparLoop_size {F : Type} (ops : List (Token F)) : ∀ out : List (Token F),
    (rparLoop out ops).1.length + nonLPar (rparLoop out ops).2.1
      = out.length + nonLPar ops := by
  induction ops with
  | nil => intro out; simp [rparLoop]
  | cons top rest ih =>
    intro out
    by_cases h : top.Kind = .TokLPar
    · simp [rparLoop, h, nonLPar]
    · have := ih (out ++ [top])
      simp [rparLoop, h, nonLPar] at this ⊢
      omega

theorem rparLoop_found {F : Type} (ops : List (Token F)) : ∀ out : List (Token F),
    0 < countKind .TokLPar ops →
    (rparLoop out ops).2.2 = true ∧
      countKind .TokLPar (rparLoop out ops).2.1 + 1 = countKind .TokLPar ops := by
  induction ops with
  | nil => intro out h; simp [countKind] at h
  | cons top rest ih =>
    intro out h
    by_cases hk : top.Kind = .TokLPar
    · simp [rparLoop, hk, countKind]
    · have h2 : 0 < countKind .TokLPar rest := by
        simpa [countKind, hk] using h
      have := ih (out ++ [top]) h2
      simpa [rparLoop, hk, countKind] using this

theorem rparLoop_not_found {F : Type} (ops : List (Token F)) : ∀ out : List (Token F),
    countKind .TokLPar ops = 0 → (rparLoop out ops).2.2 = false := by
  induction ops with
  | nil => intro out _; simp [rparLoop]
  | cons top rest ih =>
    intro out h
    by_cases hk : top.Kind = .TokLPar
    · simp [countKind, hk] at h
    · have h2 : countKind .TokLPar rest = 0 := by
        simpa [countKind, hk] using h
      simpa [rparLoop, hk] using ih (out ++ [top]) h2

theorem rparLoop_mem {F : Type} (ops : List (Token F)) : ∀ out : List (Token F),
    ∀ t ∈ (rparLoop out ops).2.1, t ∈ ops := by
  induction ops with
  | nil => intro out t ht; simp [rparLoop] at ht
  | cons top rest ih =>
    intro out t ht
    by_cases hk : top.Kind = .TokLPar
    · simp [rparLoop, hk] at ht
      exact List.mem_cons_of_mem _ ht
    · simp [rparLoop, hk] at ht
      exact List.mem_cons_of_mem _ (ih _ t ht)

theorem opLoop_size {F : Type} (tok : Token F) (ops : List (Token F)) :
    ∀ out : List (Token F),
    (opLoop tok out ops).1.length + nonLPar (opLoop tok out ops).2
      = out.length + nonLPar ops := by
  induction ops with
  | nil => intro out; simp [opLoop]
  | cons top rest ih =>
    intro out
    by_cases h : top.Kind = .TokLPar
    · simp [opLoop, h]
    · by_cases hp : precedence top.Op ≥ precedence tok.Op
      · have := ih (out ++ [top])
        simp [opLoop, h, hp, nonLPar] at this ⊢
        omega
      · simp [opLoop, h, hp]

theorem opLoop_depth {F : Type} (tok : Token F) (ops : List (Token F)) :
    ∀ out : List (Token F),
    countKind .TokLPar (opLoop tok out ops).2 = countKind .TokLPar ops := by
  induction ops with
  | nil => intro out; simp [opLoop]
  | cons top rest ih =>
    intro out
    by_cases h : top.Kind = .TokLPar
    · simp [opLoop, h]
    · by_cases hp : precedence top.Op ≥ precedence tok.Op
      · have := ih (out ++ [top])
        simpa [opLoop, h, hp, countKind] using this
      · simp [opLoop, h, hp]

theorem opLoop_mem {F : Type} (tok : Token F) (ops : List (Token F)) :
    ∀ out : List (Token F), ∀ t ∈ (opLoop tok out ops).2, t ∈ ops := by
  induction ops with
  | nil => intro out t ht; simp [opLoop] at ht
  | cons top rest ih =>
    intro out t ht
    by_cases h : top.Kind = .TokLPar
    · simpa [opLoop, h] using ht
    · by_cases hp : precedence top.Op ≥ precedence tok.Op
      · simp [opLoop, h, hp] at ht
        exact List.mem_cons_of_mem _ (ih _ t ht)
      · simpa [opLoop, h, hp] using ht

theorem drainOps_ok_of {F : Type} (ops : List (Token F)) : ∀ out : List (Token F),
    (∀ t ∈ ops, t.Kind ≠ .TokLPar ∧ t.Kind ≠ .TokRPar) →
    drainOps out ops = .ok (out ++ ops) := by
  induction ops with
  | nil => intro out _; simp [drainOps]
  | cons top rest ih =>
    intro out h
    have h1 := h top (List.mem_cons_self _ _)
    have h2 := ih (out ++ [top]) (fun t ht => h t (List.mem_cons_of_mem _ ht))
    simp [drainOps, h1.1, h1.2, h2]

theorem drainOps_error_of_lpar {F : Type} (ops : List (Token F)) :
    ∀ out : List (Token F), 0 < countKind .TokLPar ops →
    drainOps out ops = .error .MismatchedParens := by
  induction ops with
  | nil => intro out h; simp [countKind] at h
  | cons top rest ih =>
    intro out h
    by_cases hk : top.Kind = .TokLPar
    · simp [drainOps, hk]
    · by_cases hr : top.Kind = .TokRPar
      · simp [drainOps, hr]
      · have h2 : 0 < countKind .TokLPar rest := by
          simpa [countKind, hk] using h
        simp [drainOps, hk, hr, ih (out ++ [top]) h2]

/-! ## The converter under valid operator placement -/

theorem stepSY_rpar {F : Type} (st : syState F) (tok : Token F)
    (hk : tok.Kind = .TokRPar) :
    stepSY st tok =
      if (rparLoop st.out st.ops).2.2 = false then .error .MismatchedParens
      else .ok ⟨(rparLoop st.out st.ops).1, (rparLoop st.out st.ops).2.1, .prevValue⟩ := by
  simp [stepSY, hk]

theorem stepSY_op {F : Type} (st : syState F) (tok : Token F)
    (hk : tok.Kind = .TokOp) (hv : st.prev = .prevValue) :
    stepSY st tok =
      .ok ⟨(opLoop tok st.out st.ops).1, tok :: (opLoop tok st.out st.ops).2, .prevOp⟩ := by
  simp [stepSY, hk, hv]

theorem stepSY_op_unary {F : Type} (st : syState F) (tok : Token F)
    (hk : tok.Kind = .TokOp) (hv : st.prev ≠ .prevValue) :
    stepSY st tok =
      if tok.Op = OpSub then .error .UnaryMinusNotSupp
      else .error (.OpInUnaryPos tok.Op) := by
  have : st.prev = .prevStart ∨ st.prev = .prevOp ∨ st.prev = .prevLPar := by
    cases hq : st.prev <;> simp_all
  simp [stepSY, hk, this]

theorem stepSY_size {F : Type} (st st' : syState F) (tok : Token F)
    (h : stepSY st tok = .ok st') :
    st'.out.length + nonLPar st'.ops + countKind .TokLPar [tok] + countKind .TokRPar [tok]
      = st.out.length + nonLPar st.ops + 1 := by
  cases hk : tok.Kind with
  | TokNum =>
    simp [stepSY, hk] at h
    subst h
    simp [countKind, hk]
    omega
  | TokLPar =>
    simp [stepSY, hk] at h
    subst h
    simp [countKind, hk, nonLPar]
  | TokRPar =>
    rw [stepSY_rpar st tok hk] at h
    split at h
    · cases h
    · cases h
      have := rparLoop_size st.ops st.out
      simp [countKind, hk]
      omega
  | TokOp =>
    by_cases hv : st.prev = .prevValue
    · rw [stepSY_op st tok hk hv] at h
      cases h
      have := opLoop_size tok st.ops st.out
      simp [countKind, hk, nonLPar] at this ⊢
      omega
    · rw [stepSY_op_unary st tok hk hv] at h
      split at h <;> cases h

theorem Reduce_stepSY_size {F : Type} (ts : List (Token F)) :
    ∀ st st' : syState F, Reduce ts st stepSY = .ok st' →
    st'.out.length + nonLPar st'.ops + countKind .TokLPar ts + countKind .TokRPar ts
      = st.out.length + nonLPar st.ops + ts.length := by
  induction ts with
  | nil =>
    intro st st' h
    simp [Reduce] at h
    subst h
    simp [countKind]
  | cons t ts ih =>
    intro st st' h
    simp only [Reduce] at h
    cases hs : stepSY st t with
    | error e => simp [hs] at h
    | ok st1 =>
      simp only [hs] at h
      have h1 := stepSY_size st st1 t hs
      have h2 := ih st1 st' h
      simp only [countKind, List.countP_cons, List.countP_nil, List.length_cons] at h1 h2 ⊢
      omega

theorem Reduce_stepSY_scan {F : Type} (ts : List (Token F)) :
    ∀ st : syState F, placedFrom st.prev ts →
    (∀ d, scanDepth (countKind .TokLPar st.ops) ts = some d →
      ∃ st', Reduce ts st stepSY = .ok st' ∧ countKind .TokLPar st'.ops = d ∧
        ((∀ t ∈ st.ops, t.Kind ≠ .TokRPar) → ∀ t ∈ st'.ops, t.Kind ≠ .TokRPar)) ∧
    (scanDepth (countKind .TokLPar st.ops) ts = none →
      Reduce ts st stepSY = .error .MismatchedParens) := by
  induction ts with
  | nil =>
    intro st _
    refine ⟨fun d hd => ⟨st, ?_, ?_, fun h => h⟩, fun h => ?_⟩
    · simp [Reduce]
    · simpa [scanDepth] using hd
    · simp [scanDepth] at h
  | cons t ts ih =>
    intro st hp
    obtain ⟨hp1, hp2⟩ := hp
    cases hk : t.Kind with
    | TokNum =>
      have hs : stepSY st t = .ok { out := st.out ++ [t], ops := st.ops, prev := .prevValue } := by
        simp [stepSY, hk]
      have := ih { out := st.out ++ [t], ops := st.ops, prev := .prevValue }
        (by simpa [hk, prevOf] using hp2)
      simpa [Reduce, hs, scanDepth, hk] using this
    | TokLPar =>
      have hs : stepSY st t = .ok { out := st.out, ops := t :: st.ops, prev := .prevLPar } := by
        simp [stepSY, hk]
      have := ih { out := st.out, ops := t :: st.ops, prev := .prevLPar }
        (by simpa [hk, prevOf] using hp2)
      have hc : countKind .TokLPar (t :: st.ops) = countKind .TokLPar st.ops + 1 := by
        simp [countKind, hk]
      simp only [hc] at this
      obtain ⟨a, b⟩ := this
      refine ⟨fun d hd => ?_, fun hn => ?_⟩
      · obtain ⟨st', h1, h2, h3⟩ := a d (by simpa [scanDepth, hk] using hd)
        refine ⟨st', by simp [Reduce, hs, h1], h2, fun hr => h3 ?_⟩
        intro u hu
        rcases List.mem_cons.1 hu with rfl | hu
        · simp [hk]
        · exact hr u hu
      · simpa [Reduce, hs] using b (by simpa [scanDepth, hk] using hn)
    | TokRPar =>
      by_cases hz : countKind .TokLPar st.ops = 0
      · have hf := rparLoop_not_found st.ops st.out hz
        have hs : stepSY st t = .error .MismatchedParens := by
          simp [stepSY_rpar st t hk, hf]
        refine ⟨fun d hd => ?_, fun _ => by simp [Reduce, hs]⟩
        simp [scanDepth, hk, hz] at hd
      · obtain ⟨hf, hc⟩ := rparLoop_found st.ops st.out (Nat.pos_of_ne_zero hz)
        have hs : stepSY st t
            = .ok ⟨(rparLoop st.out st.ops).1, (rparLoop st.out st.ops).2.1, .prevValue⟩ := by
          simp [stepSY_rpar st t hk, hf]
        have := ih ⟨(rparLoop st.out st.ops).1, (rparLoop st.out st.ops).2.1, .prevValue⟩
          (by simpa [hk, prevOf] using hp2)
        have hc2 : countKind .TokLPar (rparLoop st.out st.ops).2.1
            = countKind .TokLPar st.ops - 1 := by omega
        simp only [hc2] at this
        obtain ⟨a, b⟩ := this
        refine ⟨fun d hd => ?_, fun hn => ?_⟩
        · obtain ⟨st', h1, h2, h3⟩ := a d (by simpa [scanDepth, hk, hz] using hd)
          refine ⟨st', by simp [Reduce, hs, h1], h2, fun hr => h3 ?_⟩
          intro u hu
          exact hr u (rparLoop_mem st.ops st.out u hu)
        · simpa [Reduce, hs] using b (by simpa [scanDepth, hk, hz] using hn)
    | TokOp =>
      have hv : st.prev = .prevValue := hp1 hk
      have hs := stepSY_op st t hk hv
      have := ih ⟨(opLoop t st.out st.ops).1, t :: (opLoop t st.out st.ops).2, .prevOp⟩
        (by simpa [hk, prevOf] using hp2)
      have hc : countKind .TokLPar (t :: (opLoop t st.out st.ops).2)
          = countKind .TokLPar st.ops := by
        have := opLoop_depth t st.ops st.out
        simpa [countKind, hk] using this
      simp only [hc] at this
      obtain ⟨a, b⟩ := this
      refine ⟨fun d hd => ?_, fun hn => ?_⟩
      · obtain ⟨st', h1, h2, h3⟩ := a d (by simpa [scanDepth, hk] using hd)
        refine ⟨st', by simp [Reduce, hs, h1], h2, fun hr => h3 ?_⟩
        intro u hu
        rcases List.mem_cons.1 hu with rfl | hu
        · simp [hk]
        · exact hr u (opLoop_mem t st.ops st.out u hu)
      · simpa [Reduce, hs] using b (by simpa [scanDepth, hk] using hn)

/-! ## From the wording of the claims to the scanning functions -/

theorem kindAt_cons_zero {F : Type} (t : Token F) (ts : List (Token F)) :
    kindAt (t :: ts) 0 = some t.Kind := by
  simp [kindAt]

theorem kindAt_cons_succ {F : Type} (t : Token F) (ts : List (Token F)) (i : Nat) :
    kindAt (t :: ts) (i + 1) = kindAt ts i := by
  simp [kindAt]

theorem placedFrom_of_index {F : Type} (ts : List (Token F)) : ∀ p : prevKind,
    (∀ i, i < ts.length → kindAt ts i = some .TokOp →
      (i = 0 → p = .prevValue) ∧
      (i ≠ 0 → kindAt ts (i - 1) ≠ some .TokOp ∧ kindAt ts (i - 1) ≠ some .TokLPar)) →
    placedFrom p ts := by
  induction ts with
  | nil => intro p _; trivial
  | cons t ts ih =>
    intro p h
    refine ⟨fun hk => ?_, ih _ ?_⟩
    · exact (h 0 (by simp) (by simp [kindAt_cons_zero, hk])).1 rfl
    · intro i hi hop
      have h1 := (h (i + 1) (by simpa using hi) (by simpa [kindAt_cons_succ] using hop)).2
        (Nat.succ_ne_zero i)
      simp only [Nat.add_sub_cancel] at h1
      refine ⟨fun hi0 => ?_, fun hi0 => ?_⟩
      · subst hi0
        rw [kindAt_cons_zero] at h1
        cases hk : t.Kind <;> simp_all [prevOf]
      · obtain ⟨j, rfl⟩ := Nat.exists_eq_succ_of_ne_zero hi0
        simpa [kindAt_cons_succ] using h1

theorem placedFrom_of_BinaryPlacement {F : Type} (ts : List (Token F))
    (h : BinaryPlacement ts) : placedFrom .prevStart ts := by
  apply placedFrom_of_index
  intro i hi hop
  obtain ⟨h0, h1, h2⟩ := h i hi hop
  exact ⟨fun hi0 => absurd hi0 h0, fun _ => ⟨h1, h2⟩⟩

theorem scanDepth_of_balanced {F : Type} (ts : List (Token F)) : ∀ d : Nat,
    (∀ n, n ≤ ts.length →
      countKind .TokRPar (ts.take n) ≤ d + countKind .TokLPar (ts.take n)) →
    d + countKind .TokLPar ts = countKind .TokRPar ts →
    scanDepth d ts = some 0 := by
  induction ts with
  | nil =>
    intro d _ h
    simp [countKind] at h
    simp [scanDepth, h]
  | cons t ts ih =>
    intro d hp htot
    cases hk : t.Kind with
    | TokNum =>
      simp only [scanDepth, hk]
      refine ih d (fun n hn => ?_) (by simpa [countKind, hk] using htot)
      simpa [countKind, hk] using hp (n + 1) (by simpa using hn)
    | TokOp =>
      simp only [scanDepth, hk]
      refine ih d (fun n hn => ?_) (by simpa [countKind, hk] using htot)
      simpa [countKind, hk] using hp (n + 1) (by simpa using hn)
    | TokLPar =>
      simp only [scanDepth, hk]
      refine ih (d + 1) (fun n hn => ?_) ?_
      · have := hp (n + 1) (by simpa using hn)
        simp [countKind, hk] at this ⊢
        omega
      · simp [countKind, hk] at htot ⊢
        omega
    | TokRPar =>
      have h1 := hp 1 (by simp)
      simp [countKind, hk] at h1
      have hd : d ≠ 0 := by omega
      simp only [scanDepth, hk, hd, if_false]
      refine ih (d - 1) (fun n hn => ?_) ?_
      · have := hp (n + 1) (by simpa using hn)
        simp [countKind, hk] at this ⊢
        omega
      · simp [countKind, hk] at htot ⊢
        omega

theorem scanDepth_of_unbalanced {F : Type} (ts : List (Token F)) : ∀ d : Nat,
    ((∃ n, n ≤ ts.length ∧
        d + countKind .TokLPar (ts.take n) < countKind .TokRPar (ts.take n)) ∨
      countKind .TokRPar ts < d + countKind .TokLPar ts) →
    scanDepth d ts = none ∨ ∃ k, scanDepth d ts = some (k + 1) := by
  induction ts with
  | nil =>
    intro d h
    rcases h with ⟨n, _, h⟩ | h
    · simp [countKind] at h
    · simp [countKind] at h
      exact Or.inr ⟨d - 1, by simp [scanDepth]; omega⟩
  | cons t ts ih =>
    intro d h
    have key : ∀ (d' : Nat) (a b : Nat),
        (∀ l : List (Token F), countKind .TokLPar (t :: l) = countKind .TokLPar l + a) →
        (∀ l : List (Token F), countKind .TokRPar (t :: l) = countKind .TokRPar l + b) →
        d' + b = d + a →
        scanDepth d' ts = none ∨ ∃ k, scanDepth d' ts = some (k + 1) := by
      intro d' a b ha hb hd
      apply ih d'
      rcases h with ⟨n, hn, h⟩ | h
      · cases n with
        | zero => simp [countKind] at h
        | succ m =>
          left
          refine ⟨m, by simpa using hn, ?_⟩
          rw [List.take_succ_cons, ha, hb] at h
          omega
      · right
        rw [ha, hb] at h
        omega
    cases hk : t.Kind with
    | TokNum =>
      simp only [scanDepth, hk]
      exact key d 0 0 (fun l => by simp [countKind, hk]) (fun l => by simp [countKind, hk]) rfl
    | TokOp =>
      simp only [scanDepth, hk]
      exact key d 0 0 (fun l => by simp [countKind, hk]) (fun l => by simp [countKind, hk]) rfl
    | TokLPar =>
      simp only [scanDepth, hk]
      exact key (d + 1) 1 0 (fun l => by simp [countKind, hk])
        (fun l => by simp [countKind, hk]) rfl
    | TokRPar =>
      by_cases hd : d = 0
      · left; simp [scanDepth, hk, hd]
      · simp only [scanDepth, hk, hd, if_false]
        exact key (d - 1) 0 1 (fun l => by simp [countKind, hk])
          (fun l => by simp [countKind, hk]) (by omega)

theorem nonLPar_eq_length {F : Type} (ops : List (Token F))
    (h : countKind .TokLPar ops = 0) : nonLPar ops = ops.length := by
  induction ops with
  | nil => simp [nonLPar]
  | cons t ops ih =>
    by_cases hk : t.Kind = .TokLPar
    · simp [countKind, hk] at h
    · have h2 : countKind .TokLPar ops = 0 := by simpa [countKind, hk] using h
      have := ih h2
      simp [nonLPar, hk] at this ⊢
      exact this

theorem stepSY_prev {F : Type} (st st' : syState F) (tok : Token F)
    (h : stepSY st tok = .ok st') : st'.prev = prevOf tok.Kind := by
  cases hk : tok.Kind with
  | TokNum => simp [stepSY, hk] at h; subst h; rfl
  | TokLPar => simp [stepSY, hk] at h; subst h; rfl
  | TokRPar =>
    rw [stepSY_rpar st tok hk] at h
    split at h
    · cases h
    · cases h; rfl
  | TokOp =>
    by_cases hv : st.prev = .prevValue
    · rw [stepSY_op st tok hk hv] at h
      cases h; rfl
    · rw [stepSY_op_unary st tok hk hv] at h
      split at h <;> cases h

theorem Reduce_stepSY_prev {F : Type} (pre : List (Token F)) :
    ∀ st0 st : syState F, Reduce pre st0 stepSY = .ok st →
    st.prev = (pre.getLast?.map (fun p => prevOf p.Kind)).getD st0.prev := by
  induction pre with
  | nil =>
    intro st0 st h
    simp [Reduce] at h
    subst h
    simp
  | cons t ts ih =>
    intro st0 st h
    simp only [Reduce] at h
    cases hs : stepSY st0 t with
    | error e => simp [hs] at h
    | ok st1 =>
      simp only [hs] at h
      have h1 := ih st1 st h
      have h2 := stepSY_prev st0 st1 t hs
      cases ts with
      | nil => simpa [h2] using h1
      | cons u us => simpa [List.getLast?_cons_cons] using h1

/-! ## Claims on the converter -/

/-- C1: for every token sequence with balanced parentheses and valid binary operator
placement, `ToRPN` returns without error and its output has as many tokens as the input
has tokens that are not parentheses. -/
theorem ToRPN_balanced_ok {F : Type} (ts : List (Token F))
    (hb : Balanced ts) (hp : BinaryPlacement ts) :
    ∃ out, ToRPN ts = .ok out ∧
      out.length = ts.length - (countKind .TokLPar ts + countKind .TokRPar ts) := by
  obtain ⟨hpre, htot⟩ := hb
  have hscan : scanDepth 0 ts = some 0 :=
    scanDepth_of_balanced ts 0 (fun n hn => by simpa using hpre n hn) (by simpa using htot)
  obtain ⟨st', hred, hdepth, hnor⟩ :=
    (Reduce_stepSY_scan ts (syInit F) (placedFrom_of_BinaryPlacement ts hp)).1 0
      (by simpa [syInit, countKind] using hscan)
  have hno : ∀ t ∈ st'.ops, t.Kind ≠ .TokLPar ∧ t.Kind ≠ .TokRPar := by
    intro t ht
    refine ⟨fun hk => ?_, hnor (by simp [syInit]) t ht⟩
    have : 0 < countKind .TokLPar st'.ops :=
      List.countP_pos_iff.2 ⟨t, ht, by simp [hk]⟩
    omega
  have hsize := Reduce_stepSY_size ts (syInit F) st' hred
  rw [nonLPar_eq_length st'.ops hdepth] at hsize
  refine ⟨st'.out ++ st'.ops, ?_, ?_⟩
  · simp [ToRPN, hred, drainOps_ok_of st'.ops st'.out hno]
  · simp [syInit, nonLPar] at hsize
    simp only [List.length_append]
    omega

/-- Witness of C1 at the tokens of `(1 + 2) * 3`. -/
theorem ToRPN_balanced_ok_witness :
    Balanced [lparTok, numTok 1, opTok OpAdd, numTok 2, rparTok, opTok OpMul, numTok 3] ∧
    BinaryPlacement
      [lparTok, numTok 1, opTok OpAdd, numTok 2, rparTok, opTok OpMul, numTok 3] ∧
    ∃ out, ToRPN [lparTok, numTok 1, opTok OpAdd, numTok 2, rparTok, opTok OpMul, numTok 3]
        = .ok out ∧
      out.length = [lparTok, numTok 1, opTok OpAdd, numTok 2, rparTok, opTok OpMul,
          numTok 3].length
        - (countKind .TokLPar
            [lparTok, numTok 1, opTok OpAdd, numTok 2, rparTok, opTok OpMul, numTok 3]
          + countKind .TokRPar
            [lparTok, numTok 1, opTok OpAdd, numTok 2, rparTok, opTok OpMul, numTok 3]) :=
  ⟨by decide, by decide, ToRPN_balanced_ok _ (by decide) (by decide)⟩

/-- C2: for every token sequence with valid binary operator placement whose parentheses
are unbalanced, `ToRPN` fails with `MismatchedParens` (and so returns no token sequence). -/
theorem ToRPN_unbalanced_error {F : Type} (ts : List (Token F))
    (hp : BinaryPlacement ts) (hu : Unbalanced ts) :
    ToRPN ts = .error .MismatchedParens := by
  have hplaced := placedFrom_of_BinaryPlacement ts hp
  have hscan := scanDepth_of_unbalanced ts 0 (by simpa [Unbalanced] using hu)
  have hrun := Reduce_stepSY_scan ts (syInit F) hplaced
  have h0 : countKind .TokLPar (syInit F).ops = 0 := by simp [syInit, countKind]
  rw [h0] at hrun
  rcases hscan with hnone | ⟨k, hk⟩
  · simp [ToRPN, hrun.2 hnone]
  · obtain ⟨st', hred, hdepth, _⟩ := hrun.1 (k + 1) hk
    simp [ToRPN, hred, drainOps_error_of_lpar st'.ops st'.out (by omega)]

/-- Witness of C2 at the tokens of `(1 + 2`. -/
theorem ToRPN_unbalanced_error_witness :
    BinaryPlacement [lparTok, numTok 1, opTok OpAdd, numTok 2] ∧
    Unbalanced [lparTok, numTok 1, opTok OpAdd, numTok 2] ∧
    ToRPN [lparTok, numTok 1, opTok OpAdd, numTok 2] = .error .MismatchedParens :=
  ⟨by decide, by decide, ToRPN_unbalanced_error _ (by decide) (by decide)⟩

/-- C3: if the converter processes `pre` without error and `pre` is empty or ends with an
operator or a left parenthesis, then `ToRPN` fails on `pre ++ [tok] ++ rest` for an operator
token `tok`: with `UnaryMinusNotSupp` when the operator is `-`, with `OpInUnaryPos` carrying
the operator when it is `+`, `*` or `/`. In particular every sequence starting with `-`
fails with `UnaryMinusNotSupp`. -/
theorem ToRPN_unary_position_error {F : Type} (pre rest : List (Token F)) (tok : Token F)
    (hk : tok.Kind = .TokOp)
    (hpre : ∃ st, Reduce pre (syInit F) stepSY = .ok st)
    (hlast : pre = [] ∨
      ∃ p, pre.getLast? = some p ∧ (p.Kind = .TokOp ∨ p.Kind = .TokLPar)) :
    (tok.Op = OpSub → ToRPN (pre ++ tok :: rest) = .error .UnaryMinusNotSupp) ∧
    (tok.Op = OpAdd ∨ tok.Op = OpMul ∨ tok.Op = OpDiv →
      ToRPN (pre ++ tok :: rest) = .error (.OpInUnaryPos tok.Op)) ∧
    (∀ (t : Token F) (ts : List (Token F)), t.Kind = .TokOp → t.Op = OpSub →
      ToRPN (t :: ts) = .error .UnaryMinusNotSupp) := by
  obtain ⟨st, hst⟩ := hpre
  have hprev := Reduce_stepSY_prev pre (syInit F) st hst
  have hv : st.prev ≠ .prevValue := by
    rcases hlast with rfl | ⟨p, hp, hp2⟩
    · simp [syInit] at hprev
      simp [hprev]
    · rcases hp2 with hp2 | hp2 <;> simp [hp, hp2, prevOf] at hprev <;> simp [hprev]
  have hstep := stepSY_op_unary st tok hk hv
  refine ⟨fun hsub => ?_, fun hoth => ?_, fun t ts htk hts => ?_⟩
  · rw [if_pos hsub] at hstep
    simp [ToRPN, Reduce_append_error stepSY pre rest tok _ st _ hst hstep]
  · have hne : tok.Op ≠ OpSub := by
      rcases hoth with h | h | h <;> rw [h] <;> decide
    rw [if_neg hne] at hstep
    simp [ToRPN, Reduce_append_error stepSY pre rest tok _ st _ hst hstep]
  · simp [ToRPN, Reduce, stepSY, htk, hts, syInit]

/-- Witness of C3 at the tokens of `1 + * 2`, where `*` directly follows `+`. -/
theorem ToRPN_unary_position_error_witness :
    (opTok OpMul).Kind = .TokOp ∧
    (∃ st, Reduce [numTok 1, opTok OpAdd] (syInit ℚ) stepSY = .ok st) ∧
    ([numTok 1, opTok OpAdd] = [] ∨
      ∃ p, [numTok 1, opTok OpAdd].getLast? = some p ∧
        (p.Kind = .TokOp ∨ p.Kind = .TokLPar)) ∧
    (ToRPN ([numTok 1, opTok OpAdd] ++ opTok OpMul :: [numTok 2])
      = .error (.OpInUnaryPos OpMul)) :=
  ⟨rfl, ⟨_, rfl⟩, Or.inr ⟨opTok OpAdd, rfl, Or.inl rfl⟩,
    (ToRPN_unary_position_error [numTok 1, opTok OpAdd] [numTok 2] (opTok OpMul) rfl
      ⟨_, rfl⟩ (Or.inr ⟨opTok OpAdd, rfl, Or.inl rfl⟩)).2.1 (Or.inr (Or.inl rfl))⟩

/-- C4: operator precedence. For number tokens `a`, `b`, `c`, an operator token `o1`
carrying `+` or `-` and an operator token `o2` carrying `*` or `/`,
`ToRPN [a, o1, b, o2, c]` returns exactly `[a, b, c, o2, o1]`. -/
theorem ToRPN_precedence {F : Type} (a o1 b o2 c : Token F)
    (ha : a.Kind = .TokNum) (hb : b.Kind = .TokNum) (hc : c.Kind = .TokNum)
    (h1 : o1.Kind = .TokOp) (h2 : o2.Kind = .TokOp)
    (hop1 : o1.Op = OpAdd ∨ o1.Op = OpSub) (hop2 : o2.Op = OpMul ∨ o2.Op = OpDiv) :
    ToRPN [a, o1, b, o2, c] = .ok [a, b, c, o2, o1] := by
  have hp : ¬ (precedence o1.Op ≥ precedence o2.Op) := by
    rcases hop1 with h | h <;> rcases hop2 with h' | h' <;> rw [h, h'] <;> decide
  simp [ToRPN, Reduce, stepSY, syInit, opLoop, drainOps, ha, hb, hc, h1, h2, hp]

/-- Witness of C4 at the tokens of `1 + 2 * 3`, whose postfix is `1 2 3 * +`. -/
theorem ToRPN_precedence_witness :
    ((numTok 1).Kind = .TokNum ∧ (numTok 2).Kind = .TokNum ∧ (numTok 3).Kind = .TokNum) ∧
    ((opTok OpAdd).Kind = .TokOp ∧ (opTok OpMul).Kind = .TokOp) ∧
    ((opTok OpAdd).Op = OpAdd ∨ (opTok OpAdd).Op = OpSub) ∧
    ((opTok OpMul).Op = OpMul ∨ (opTok OpMul).Op = OpDiv) ∧
    ToRPN [numTok 1, opTok OpAdd, numTok 2, opTok OpMul, numTok 3]
      = .ok [numTok 1, numTok 2, numTok 3, opTok OpMul, opTok OpAdd] :=
  ⟨⟨rfl, rfl, rfl⟩, ⟨rfl, rfl⟩, Or.inl rfl, Or.inl rfl,
    ToRPN_precedence (numTok 1) (opTok OpAdd) (numTok 2) (opTok OpMul) (numTok 3)
      rfl rfl rfl rfl rfl (Or.inl rfl) (Or.inl rfl)⟩

/-- C5: left-associativity. For number tokens `a`, `b`, `c` and operator tokens `o1`, `o2`
of equal precedence (both carrying `+` or `-`, or both carrying `*` or `/`),
`ToRPN [a, o1, b, o2, c]` returns exactly `[a, b, o1, c, o2]`. -/
theorem ToRPN_left_assoc {F : Type} (a o1 b o2 c : Token F)
    (ha : a.Kind = .TokNum) (hb : b.Kind = .TokNum) (hc : c.Kind = .TokNum)
    (h1 : o1.Kind = .TokOp) (h2 : o2.Kind = .TokOp)
    (hops : ((o1.Op = OpAdd ∨ o1.Op = OpSub) ∧ (o2.Op = OpAdd ∨ o2.Op = OpSub)) ∨
      ((o1.Op = OpMul ∨ o1.Op = OpDiv) ∧ (o2.Op = OpMul ∨ o2.Op = OpDiv))) :
    ToRPN [a, o1, b, o2, c] = .ok [a, b, o1, c, o2] := by
  have hp : precedence o1.Op ≥ precedence o2.Op := by
    rcases hops with ⟨h | h, h' | h'⟩ | ⟨h | h, h' | h'⟩ <;> rw [h, h'] <;> decide
  simp [ToRPN, Reduce, stepSY, syInit, opLoop, drainOps, ha, hb, hc, h1, h2, hp]

/-- Witness of C5 at the tokens of `8 - 3 - 2`, whose postfix is `8 3 - 2 -`. -/
theorem ToRPN_left_assoc_witness :
    ((numTok 8).Kind = .TokNum ∧ (numTok 3).Kind = .TokNum ∧ (numTok 2).Kind = .TokNum) ∧
    (opTok OpSub).Kind = .TokOp ∧
    ((opTok OpSub).Op = OpAdd ∨ (opTok OpSub).Op = OpSub) ∧
    ToRPN [numTok 8, opTok OpSub, numTok 3, opTok OpSub, numTok 2]
      = .ok [numTok 8, numTok 3, opTok OpSub, numTok 2, opTok OpSub] :=
  ⟨⟨rfl, rfl, rfl⟩, rfl, Or.inr rfl,
    ToRPN_left_assoc (numTok 8) (opTok OpSub) (numTok 3) (opTok OpSub) (numTok 2)
      rfl rfl rfl rfl rfl (Or.inl ⟨Or.inr rfl, Or.inr rfl⟩)⟩

/-- C6: parentheses override precedence. For number tokens `a`, `b`, `c`, operator tokens
`o1`, `o2` (carrying any operators) and parenthesis tokens `l`, `r`,
`ToRPN [l, a, o1, b, r, o2, c]` returns exactly `[a, b, o1, c, o2]`. -/
theorem ToRPN_parens {F : Type} (l a o1 b r o2 c : Token F)
    (hl : l.Kind = .TokLPar) (hr : r.Kind = .TokRPar)
    (ha : a.Kind = .TokNum) (hb : b.Kind = .TokNum) (hc : c.Kind = .TokNum)
    (h1 : o1.Kind = .TokOp) (h2 : o2.Kind = .TokOp) :
    ToRPN [l, a, o1, b, r, o2, c] = .ok [a, b, o1, c, o2] := by
  simp [ToRPN, Reduce, stepSY, syInit, opLoop, rparLoop, drainOps, hl, hr, ha, hb, hc, h1, h2]

/-- Witness of C6 at the tokens of `(1 + 2) * 3`, whose postfix is `1 2 + 3 *`. -/
theorem ToRPN_parens_witness :
    (lparTok.Kind = .TokLPar ∧ rparTok.Kind = .TokRPar) ∧
    ((numTok 1).Kind = .TokNum ∧ (numTok 2).Kind = .TokNum ∧ (numTok 3).Kind = .TokNum) ∧
    ((opTok OpAdd).Kind = .TokOp ∧ (opTok OpMul).Kind = .TokOp) ∧
    ToRPN [lparTok, numTok 1, opTok OpAdd, numTok 2, rparTok, opTok OpMul, numTok 3]
      = .ok [numTok 1, numTok 2, opTok OpAdd, numTok 3, opTok OpMul] :=
  ⟨⟨rfl, rfl⟩, ⟨rfl, rfl, rfl⟩, ⟨rfl, rfl⟩,
    ToRPN_parens lparTok (numTok 1) (opTok OpAdd) (numTok 2) rparTok (opTok OpMul)
      (numTok 3) rfl rfl rfl rfl rfl rfl rfl⟩

/-! ## Claims on the evaluator -/

theorem stepRPN_depth {F : Type} [FloatArith F] (st st' : stackState F) (tok : Token F)
    (h : stepRPN st tok = .ok st') :
    st'.stack.length + countKind .TokOp [tok] = st.stack.length + countKind .TokNum [tok] := by
  cases hk : tok.Kind with
  | TokNum =>
    simp [stepRPN, hk] at h
    subst h
    simp [countKind, hk]
  | TokOp =>
    simp only [stepRPN, hk] at h
    split at h
    · split at h
      · cases h
      · cases h
        simp_all [countKind]
    · cases h
  | TokLPar => simp [stepRPN, hk] at h
  | TokRPar => simp [stepRPN, hk] at h

theorem Reduce_stepRPN_depth {F : Type} [FloatArith F] (ts : List (Token F)) :
    ∀ st0 st : stackState F, Reduce ts st0 stepRPN = .ok st →
    st.stack.length + countKind .TokOp ts = st0.stack.length + countKind .TokNum ts := by
  induction ts with
  | nil =>
    intro st0 st h
    simp [Reduce] at h
    subst h
    simp [countKind]
  | cons t ts ih =>
    intro st0 st h
    simp only [Reduce] at h
    cases hs : stepRPN st0 t with
    | error e => simp [hs] at h
    | ok st1 =>
      simp only [hs] at h
      have h1 := stepRPN_depth st0 st1 t hs
      have h2 := ih st1 st h
      simp only [countKind, List.countP_cons, List.countP_nil] at h1 h2 ⊢
      omega

/-- C7: operand order. For number tokens `tb` (pushed first) and `ta` and an operator token
carrying `+`, `-`, `*` or `/` (with `ta.Num == 0.0` false when it is `/`),
`CalcRPN [tb, ta, op]` returns `tb.Num op ta.Num` without error: the value pushed first is
the left operand. -/
theorem CalcRPN_operand_order {F : Type} [FloatArith F] (tb ta o : Token F)
    (hb : tb.Kind = .TokNum) (ha : ta.Kind = .TokNum) (ho : o.Kind = .TokOp)
    (hdiv : o.Op = OpDiv → FloatArith.isZero ta.Num = false) :
    (o.Op = OpAdd → CalcRPN [tb, ta, o] = .ok (FloatArith.add tb.Num ta.Num)) ∧
    (o.Op = OpSub → CalcRPN [tb, ta, o] = .ok (FloatArith.sub tb.Num ta.Num)) ∧
    (o.Op = OpMul → CalcRPN [tb, ta, o] = .ok (FloatArith.mul tb.Num ta.Num)) ∧
    (o.Op = OpDiv → CalcRPN [tb, ta, o] = .ok (FloatArith.div tb.Num ta.Num)) := by
  refine ⟨fun h => ?_, fun h => ?_, fun h => ?_, fun h => ?_⟩
  · simp [CalcRPN, Reduce, stepRPN, rpnInit, applyOp, hb, ha, ho, h]
  · simp [CalcRPN, Reduce, stepRPN, rpnInit, applyOp, hb, ha, ho, h, OpSub, OpAdd]
  · simp [CalcRPN, Reduce, stepRPN, rpnInit, applyOp, hb, ha, ho, h, OpMul, OpSub, OpAdd]
  · simp [CalcRPN, Reduce, stepRPN, rpnInit, applyOp, hb, ha, ho, h, hdiv h,
      OpDiv, OpMul, OpSub, OpAdd]

/-- Witness of C7: `5 2 /` gives `5 / 2`, with `5` the left operand. -/
theorem CalcRPN_operand_order_witness :
    ((numTok 5).Kind = .TokNum ∧ (numTok 2).Kind = .TokNum ∧ (opTok OpDiv).Kind = .TokOp) ∧
    FloatArith.isZero (numTok 2).Num = false ∧
    CalcRPN [numTok 5, numTok 2, opTok OpDiv] = .ok (5 / 2) :=
  ⟨⟨rfl, rfl, rfl⟩, by decide,
    (CalcRPN_operand_order (numTok 5) (numTok 2) (opTok OpDiv) rfl rfl rfl
      (fun _ => by decide)).2.2.2 rfl⟩

/-- C8: division by zero. For a number token `tb`, a number token `tz` whose value
compares equal to `0.0` and an operator token carrying `/`, `CalcRPN [tb, tz, o]` fails with
`DivByZero`; more generally, whenever `/` is applied with a top of stack that compares equal
to `0.0`, `CalcRPN` fails with `DivByZero`. -/
theorem CalcRPN_division_by_zero {F : Type} [FloatArith F] :
    (∀ tb tz o : Token F, tb.Kind = .TokNum → tz.Kind = .TokNum → o.Kind = .TokOp →
      o.Op = OpDiv → FloatArith.isZero tz.Num = true →
      CalcRPN [tb, tz, o] = .error .DivByZero) ∧
    (∀ (pre rest : List (Token F)) (o : Token F) (st : stackState F) (a b : F)
      (more : List F), o.Kind = .TokOp → o.Op = OpDiv →
      Reduce pre (rpnInit F) stepRPN = .ok st → st.stack = a :: b :: more →
      FloatArith.isZero a = true →
      CalcRPN (pre ++ o :: rest) = .error .DivByZero) := by
  have happ : ∀ (x y : F), FloatArith.isZero y = true →
      applyOp OpDiv x y = (.error .DivByZero : Except (Err F) F) := by
    intro x y hy
    simp [applyOp, hy, OpDiv, OpAdd, OpSub, OpMul]
  refine ⟨fun tb tz o hb hz ho hop hzero => ?_, ?_⟩
  · simp [CalcRPN, Reduce, stepRPN, rpnInit, hb, hz, ho, hop, happ _ _ hzero]
  · intro pre rest o st a b more ho hop hpre hstack hzero
    have hstep : stepRPN st o = .error .DivByZero := by
      simp [stepRPN, ho, hstack, hop, happ b a hzero]
    simp [CalcRPN, Reduce_append_error stepRPN pre rest o _ st _ hpre hstep]

/-- Witness of C8: `1 0 /` fails with `DivByZero`. -/
theorem CalcRPN_division_by_zero_witness :
    ((numTok 1).Kind = .TokNum ∧ (numTok 0).Kind = .TokNum ∧ (opTok OpDiv).Kind = .TokOp) ∧
    (opTok OpDiv).Op = OpDiv ∧
    FloatArith.isZero (numTok 0).Num = true ∧
    CalcRPN [numTok 1, numTok 0, opTok OpDiv] = .error .DivByZero :=
  ⟨⟨rfl, rfl, rfl⟩, rfl, by decide,
    CalcRPN_division_by_zero.1 (numTok 1) (numTok 0) (opTok OpDiv) rfl rfl rfl rfl
      (by decide)⟩

/-- C9: stack underflow. If the evaluator processes `pre` without error and `pre` has
fewer than two more number tokens than operator tokens, then fewer than two values are on
the stack and, for an operator token `tok`, `CalcRPN (pre ++ [tok] ++ rest)` fails with
`StackUnderflow` naming the operator of `tok`. -/
theorem CalcRPN_stack_underflow {F : Type} [FloatArith F] (pre rest : List (Token F))
    (tok : Token F) (st : stackState F)
    (hk : tok.Kind = .TokOp)
    (hpre : Reduce pre (rpnInit F) stepRPN = .ok st)
    (hcount : countKind .TokNum pre < countKind .TokOp pre + 2) :
    st.stack.length < 2 ∧
      CalcRPN (pre ++ tok :: rest) = .error (.StackUnderflow tok.Op) := by
  have hdepth := Reduce_stepRPN_depth pre (rpnInit F) st hpre
  have hlen : st.stack.length < 2 := by
    simp [rpnInit] at hdepth
    omega
  have hstep : stepRPN st tok = .error (.StackUnderflow tok.Op) := by
    simp only [stepRPN, hk]
    split
    · next a b more hs =>
      rw [hs] at hlen
      simp only [List.length_cons] at hlen
      omega
    · rfl
  exact ⟨hlen, by simp [CalcRPN, Reduce_append_error stepRPN pre rest tok _ st _ hpre hstep]⟩

/-- Witness of C9: in `1 + 2` taken as postfix input, `+` finds one value on the stack. -/
theorem CalcRPN_stack_underflow_witness :
    (opTok OpAdd).Kind = .TokOp ∧
    Reduce [numTok 1] (rpnInit ℚ) stepRPN = .ok ⟨[1]⟩ ∧
    countKind .TokNum [numTok 1] < countKind .TokOp [numTok 1] + 2 ∧
    CalcRPN ([numTok 1] ++ opTok OpAdd :: [numTok 2]) = .error (.StackUnderflow OpAdd) :=
  ⟨rfl, rfl, by decide,
    (CalcRPN_stack_underflow [numTok 1] [numTok 2] (opTok OpAdd) ⟨[1]⟩ rfl rfl
      (by decide)).2⟩

/-- C10: leftover stack items. For a non-empty token sequence that the evaluator processes
without a per-token error, `CalcRPN` returns the single remaining value if the final stack
holds exactly one value, and otherwise fails with `Leftover` reporting the final stack (in
the index order of the slice). -/
theorem CalcRPN_leftover {F : Type} [FloatArith F] (ts : List (Token F))
    (st : stackState F) (hne : ts ≠ [])
    (hrun : Reduce ts (rpnInit F) stepRPN = .ok st) :
    (∀ v, st.stack = [v] → CalcRPN ts = .ok v) ∧
    (st.stack.length ≠ 1 → CalcRPN ts = .error (.Leftover st.stack.reverse)) := by
  have hlen : ts.length ≠ 0 := by simpa using hne
  refine ⟨fun v hv => ?_, fun hl => ?_⟩
  · simp [CalcRPN, hlen, hrun, hv]
  · simp only [CalcRPN, hlen, hrun, if_false]
    split
    · next v hs => simp [hs] at hl
    · rfl

/-- Witness of C10: `1 2` fails with `Leftover` reporting the stack `[1, 2]`. -/
theorem CalcRPN_leftover_witness :
    [numTok 1, numTok 2] ≠ [] ∧
    Reduce [numTok 1, numTok 2] (rpnInit ℚ) stepRPN = .ok ⟨[2, 1]⟩ ∧
    CalcRPN [numTok 1, numTok 2] = .error (.Leftover [1, 2]) :=
  ⟨by simp, rfl,
    (CalcRPN_leftover [numTok 1, numTok 2] ⟨[2, 1]⟩ (by simp) rfl).2 (by decide)⟩

/-! ## Expression trees through the converter and the evaluator -/

theorem Reduce_inorderToks {F : Type} [FloatZero F] (e : Expr F) :
    ∀ st : syState F, Reduce e.inorderToks st stepSY
      = .ok ⟨st.out ++ e.postorderToks, st.ops, .prevValue⟩ := by
  induction e with
  | num n =>
    intro st
    simp [Expr.inorderToks, Expr.postorderToks, Reduce, stepSY, mkNum]
  | node op l r ihl ihr =>
    intro st
    have h1 : Reduce [mkLPar] st stepSY
        = .ok ⟨st.out, (mkLPar : Token F) :: st.ops, .prevLPar⟩ := by
      simp [Reduce, stepSY, mkLPar]
    have h2 : ∀ out : List (Token F),
        Reduce [mkOp op.rune] ⟨out, (mkLPar : Token F) :: st.ops, .prevValue⟩ stepSY
          = .ok ⟨out, mkOp op.rune :: mkLPar :: st.ops, .prevOp⟩ := by
      intro out
      simp [Reduce, stepSY, mkOp, mkLPar, opLoop]
    have h3 : ∀ out : List (Token F),
        Reduce [mkRPar] ⟨out, mkOp op.rune :: (mkLPar : Token F) :: st.ops, .prevValue⟩
          stepSY = .ok ⟨out ++ [mkOp op.rune], st.ops, .prevValue⟩ := by
      intro out
      simp [Reduce, stepSY, mkOp, mkLPar, mkRPar, rparLoop]
    simp only [Expr.inorderToks, Expr.postorderToks, Reduce_append, h1, ihl, h2, ihr, h3,
      List.append_assoc]

theorem applyOp_rune {F : Type} [FloatArith F] (op : BinOp) (b a : F)
    (h : op = .div → FloatArith.isZero a = false) :
    applyOp op.rune b a = .ok (op.apply b a) := by
  cases op with
  | add => simp [applyOp, BinOp.rune, BinOp.apply]
  | sub => simp [applyOp, BinOp.rune, BinOp.apply, OpAdd, OpSub]
  | mul => simp [applyOp, BinOp.rune, BinOp.apply, OpAdd, OpSub, OpMul]
  | div => simp [applyOp, BinOp.rune, BinOp.apply, OpAdd, OpSub, OpMul, OpDiv, h rfl]

theorem Reduce_postorderToks {F : Type} [FloatArith F] [FloatZero F] (e : Expr F) :
    e.divSafe → ∀ st : stackState F,
    Reduce e.postorderToks st stepRPN = .ok ⟨e.value :: st.stack⟩ := by
  induction e with
  | num n =>
    intro _ st
    simp [Expr.postorderToks, Expr.value, Reduce, stepRPN, mkNum]
  | node op l r ihl ihr =>
    intro hsafe st
    obtain ⟨hdiv, hl, hr⟩ := hsafe
    have hop : Reduce [mkOp op.rune] ⟨r.value :: l.value :: st.stack⟩ stepRPN
        = .ok ⟨op.apply l.value r.value :: st.stack⟩ := by
      simp [Reduce, stepRPN, mkOp, applyOp_rune op l.value r.value hdiv]
    simp only [Expr.postorderToks, Expr.value, Reduce_append, ihl hl, ihr hr, hop]

theorem postorderToks_ne_nil {F : Type} [FloatZero F] (e : Expr F) :
    e.postorderToks ≠ [] := by
  cases e <;> simp [Expr.postorderToks]

/-- C16: for every expression tree `e`, `ToRPN` applied to the fully parenthesised in-order
token list of `e` succeeds and returns the post-order token list of `e`. -/
theorem ToRPN_inorder_eq_postorder {F : Type} [FloatZero F] (e : Expr F) :
    ToRPN e.inorderToks = .ok e.postorderToks := by
  simp [ToRPN, Reduce_inorderToks, syInit, drainOps]

/-- C17: for every expression tree `e` in which no division node has a right subtree whose
value compares equal to `0.0`, `CalcRPN` applied to the post-order token list of `e`
succeeds and returns the recursive value of `e`. -/
theorem CalcRPN_postorder_eq_value {F : Type} [FloatArith F] [FloatZero F] (e : Expr F)
    (h : e.divSafe) : CalcRPN e.postorderToks = .ok e.value := by
  have hne : e.postorderToks.length ≠ 0 := by
    simpa using postorderToks_ne_nil e
  simp [CalcRPN, hne, Reduce_postorderToks e h, rpnInit]

/-- Witness of C17 at the tree of `(8 - 3) / 2`, whose value is `5 / 2`. -/
theorem CalcRPN_postorder_eq_value_witness :
    (Expr.node .div (.node .sub (.num 8) (.num 3)) (.num (2 : ℚ))).divSafe ∧
    CalcRPN (Expr.node .div (.node .sub (.num 8) (.num 3)) (.num (2 : ℚ))).postorderToks
      = .ok (Expr.node .div (.node .sub (.num 8) (.num 3)) (.num (2 : ℚ))).value :=
  ⟨by simp [Expr.divSafe, Expr.value, FloatArith.isZero],
    CalcRPN_postorder_eq_value _ (by simp [Expr.divSafe, Expr.value, FloatArith.isZero])⟩

/-! ## What each step moves between the operator stack and the output -/

theorem rparLoop_spec {F : Type} (ops : List (Token F)) : ∀ out : List (Token F),
    (rparLoop out ops).2.2 = true →
    ∃ popped lp, ops = popped ++ lp :: (rparLoop out ops).2.1 ∧ lp.Kind = .TokLPar ∧
      (∀ t ∈ popped, t.Kind ≠ .TokLPar) ∧ (rparLoop out ops).1 = out ++ popped := by
  induction ops with
  | nil => intro out h; simp [rparLoop] at h
  | cons top rest ih =>
    intro out h
    by_cases hk : top.Kind = .TokLPar
    · exact ⟨[], top, by simp [rparLoop, hk], hk, by simp, by simp [rparLoop, hk]⟩
    · have h2 : (rparLoop (out ++ [top]) rest).2.2 = true := by
        simpa [rparLoop, hk] using h
      obtain ⟨popped, lp, e1, e2, e3, e4⟩ := ih (out ++ [top]) h2
      refine ⟨top :: popped, lp, ?_, e2, ?_, ?_⟩
      · simp only [rparLoop, hk, if_false, List.cons_append]
        exact congrArg (List.cons top) e1
      · intro t ht
        rcases List.mem_cons.1 ht with rfl | ht
        · exact hk
        · exact e3 t ht
      · simp [rparLoop, hk, e4]

theorem opLoop_spec {F : Type} (tok : Token F) (ops : List (Token F)) :
    ∀ out : List (Token F),
    ∃ popped, ops = popped ++ (opLoop tok out ops).2 ∧
      (∀ t ∈ popped, t.Kind ≠ .TokLPar) ∧ (opLoop tok out ops).1 = out ++ popped := by
  induction ops with
  | nil => intro out; exact ⟨[], by simp [opLoop], by simp, by simp [opLoop]⟩
  | cons top rest ih =>
    intro out
    by_cases hk : top.Kind = .TokLPar
    · exact ⟨[], by simp [opLoop, hk], by simp, by simp [opLoop, hk]⟩
    · by_cases hp : precedence top.Op ≥ precedence tok.Op
      · obtain ⟨popped, e1, e3, e4⟩ := ih (out ++ [top])
        refine ⟨top :: popped, ?_, ?_, ?_⟩
        · simp only [opLoop, hk, hp, if_false, if_true, List.cons_append]
          exact congrArg (List.cons top) e1
        · intro t ht
          rcases List.mem_cons.1 ht with rfl | ht
          · exact hk
          · exact e3 t ht
        · simp [opLoop, hk, hp, e4]
      · exact ⟨[], by simp [opLoop, hk, hp], by simp, by simp [opLoop, hk, hp]⟩

theorem drainOps_spec {F : Type} (ops : List (Token F)) :
    ∀ out r : List (Token F), drainOps out ops = .ok r →
    r = out ++ ops ∧ ∀ t ∈ ops, t.Kind ≠ .TokLPar ∧ t.Kind ≠ .TokRPar := by
  induction ops with
  | nil =>
    intro out r h
    simp [drainOps] at h
    simp [h]
  | cons top rest ih =>
    intro out r h
    by_cases hk : top.Kind = .TokLPar ∨ top.Kind = .TokRPar
    · simp [drainOps, hk] at h
    · simp only [drainOps, hk, if_false] at h
      obtain ⟨e1, e2⟩ := ih (out ++ [top]) r h
      refine ⟨by simp [e1], ?_⟩
      intro t ht
      rcases List.mem_cons.1 ht with rfl | ht
      · exact not_or.1 hk
      · exact e2 t ht

theorem stepSY_spec {F : Type} (st st' : syState F) (tok : Token F)
    (h : stepSY st tok = .ok st') :
    ∃ popped dropped kept,
      st.ops = popped ++ dropped ++ kept ∧
      st'.out = st.out ++ popped ++ (if tok.Kind = .TokNum then [tok] else []) ∧
      st'.ops = (if tok.Kind = .TokOp ∨ tok.Kind = .TokLPar then [tok] else []) ++ kept ∧
      (∀ t ∈ popped, t.Kind ≠ .TokLPar) ∧ (∀ t ∈ dropped, t.Kind = .TokLPar) := by
  cases hk : tok.Kind with
  | TokNum =>
    simp [stepSY, hk] at h
    subst h
    exact ⟨[], [], st.ops, by simp, by simp, by simp, by simp, by simp⟩
  | TokLPar =>
    simp [stepSY, hk] at h
    subst h
    exact ⟨[], [], st.ops, by simp, by simp, by simp, by simp, by simp⟩
  | TokRPar =>
    rw [stepSY_rpar st tok hk] at h
    split at h
    · cases h
    · next hf =>
      cases h
      obtain ⟨popped, lp, e1, e2, e3, e4⟩ := rparLoop_spec st.ops st.out (by simpa using hf)
      refine ⟨popped, [lp], (rparLoop st.out st.ops).2.1, ?_, ?_, by simp, e3, ?_⟩
      · simpa using e1
      · simp [e4]
      · simpa using e2
  | TokOp =>
    by_cases hv : st.prev = .prevValue
    · rw [stepSY_op st tok hk hv] at h
      cases h
      obtain ⟨popped, e1, e3, e4⟩ := opLoop_spec tok st.ops st.out
      refine ⟨popped, [], (opLoop tok st.out st.ops).2, ?_, ?_, by simp, e3, by simp⟩
      · simpa using e1
      · simp [e4]
    · rw [stepSY_op_unary st tok hk hv] at h
      split at h <;> cases h

/-! ## Invariants of the converter: stack contents, multiset of tokens, order of numbers -/

theorem dropParens_append {F : Type} (xs ys : List (Token F)) :
    dropParens (xs ++ ys) = dropParens xs ++ dropParens ys := by
  simp [dropParens]

theorem numbersOf_append {F : Type} (xs ys : List (Token F)) :
    numbersOf (xs ++ ys) = numbersOf xs ++ numbersOf ys := by
  simp [numbersOf]

theorem dropParens_eq_self {F : Type} (xs : List (Token F))
    (h : ∀ t ∈ xs, t.Kind ≠ .TokLPar ∧ t.Kind ≠ .TokRPar) : dropParens xs = xs := by
  unfold dropParens
  rw [List.filter_eq_self]
  intro t ht
  simpa using h t ht

theorem dropParens_eq_nil {F : Type} (xs : List (Token F))
    (h : ∀ t ∈ xs, t.Kind = .TokLPar) : dropParens xs = [] := by
  unfold dropParens
  rw [List.filter_eq_nil_iff]
  intro t ht
  simp [h t ht]

theorem numbersOf_eq_nil {F : Type} (xs : List (Token F))
    (h : ∀ t ∈ xs, t.Kind = .TokOp ∨ t.Kind = .TokLPar) : numbersOf xs = [] := by
  unfold numbersOf
  rw [List.filter_eq_nil_iff]
  intro t ht
  rcases h t ht with h1 | h1 <;> simp [h1]

theorem stepSY_invariants {F : Type} (st st' : syState F) (tok : Token F)
    (h : stepSY st tok = .ok st')
    (hops : ∀ t ∈ st.ops, t.Kind = .TokOp ∨ t.Kind = .TokLPar) :
    (∀ t ∈ st'.ops, t.Kind = .TokOp ∨ t.Kind = .TokLPar) ∧
    (st'.out ++ dropParens st'.ops).Perm (st.out ++ dropParens st.ops ++ dropParens [tok]) ∧
    numbersOf st'.out = numbersOf st.out ++ numbersOf [tok] := by
  obtain ⟨popped, dropped, kept, e1, e2, e3, e4, e5⟩ := stepSY_spec st st' tok h
  have hpop : ∀ t ∈ popped, t.Kind = .TokOp ∨ t.Kind = .TokLPar :=
    fun t ht => hops t (by rw [e1]; simp [ht])
  have hkept : ∀ t ∈ kept, t.Kind = .TokOp ∨ t.Kind = .TokLPar :=
    fun t ht => hops t (by rw [e1]; simp [ht])
  have hpop2 : dropParens popped = popped := by
    apply dropParens_eq_self
    intro t ht
    rcases hpop t ht with h1 | h1
    · simp [h1]
    · exact absurd h1 (e4 t ht)
  have hpop3 : numbersOf popped = [] :=
    numbersOf_eq_nil popped hpop
  refine ⟨?_, ?_, ?_⟩
  · intro t ht
    rw [e3] at ht
    rcases List.mem_append.1 ht with ht | ht
    · split at ht
      · next hk =>
        simp at ht
        subst ht
        exact hk
      · simp at ht
    · exact hkept t ht
  · rw [e1, e2, e3]
    simp only [dropParens_append, hpop2, dropParens_eq_nil dropped e5, List.append_nil,
      List.append_assoc]
    refine List.Perm.append_left _ (List.Perm.append_left _ ?_)
    cases hk : tok.Kind <;> simp [dropParens, hk] <;>
      exact (List.perm_append_singleton _ _).symm
  · rw [e2]
    simp only [numbersOf_append, hpop3, List.append_nil]
    congr 1
    cases hk : tok.Kind <;> simp [numbersOf, hk]

theorem Reduce_stepSY_invariants {F : Type} (ts : List (Token F)) :
    ∀ st st' : syState F, Reduce ts st stepSY = .ok st' →
    (∀ t ∈ st.ops, t.Kind = .TokOp ∨ t.Kind = .TokLPar) →
    (∀ t ∈ st'.ops, t.Kind = .TokOp ∨ t.Kind = .TokLPar) ∧
    (st'.out ++ dropParens st'.ops).Perm (st.out ++ dropParens st.ops ++ dropParens ts) ∧
    numbersOf st'.out = numbersOf st.out ++ numbersOf ts := by
  induction ts with
  | nil =>
    intro st st' h hops
    simp [Reduce] at h
    subst h
    exact ⟨hops, by simp [dropParens], by simp [numbersOf]⟩
  | cons t ts ih =>
    intro st st' h hops
    simp only [Reduce] at h
    cases hs : stepSY st t with
    | error e => simp [hs] at h
    | ok st1 =>
      simp only [hs] at h
      obtain ⟨a1, a2, a3⟩ := stepSY_invariants st st1 t hs hops
      obtain ⟨b1, b2, b3⟩ := ih st1 st' h a1
      refine ⟨b1, ?_, ?_⟩
      · refine b2.trans ?_
        have : dropParens (t :: ts) = dropParens [t] ++ dropParens ts := by
          rw [← dropParens_append]; rfl
        rw [this, ← List.append_assoc]
        exact a2.append_right _
      · have : numbersOf (t :: ts) = numbersOf [t] ++ numbersOf ts := by
          rw [← numbersOf_append]; rfl
        rw [b3, a3, this, List.append_assoc]

theorem ToRPN_ok_spec {F : Type} (ts out : List (Token F)) (h : ToRPN ts = .ok out) :
    out.Perm (dropParens ts) ∧ numbersOf out = numbersOf ts := by
  unfold ToRPN at h
  cases hr : Reduce ts (syInit F) stepSY with
  | error e => simp [hr] at h
  | ok st =>
    simp only [hr] at h
    obtain ⟨a1, a2, a3⟩ := Reduce_stepSY_invariants ts (syInit F) st hr (by simp [syInit])
    obtain ⟨d1, d2⟩ := drainOps_spec st.ops st.out out h
    refine ⟨?_, ?_⟩
    · rw [dropParens_eq_self st.ops d2] at a2
      rw [d1]
      simpa [syInit, dropParens] using a2
    · rw [d1, numbersOf_append, numbersOf_eq_nil st.ops a1, a3]
      simp [syInit, numbersOf]

/-- C18: whenever `ToRPN ts` succeeds, its output is a permutation of `ts` with every
parenthesis token removed: it contains no parenthesis token and it contains each number
token and each operator token exactly as many times as `ts` does. -/
theorem ToRPN_perm {F : Type} [DecidableEq F] (ts out : List (Token F))
    (h : ToRPN ts = .ok out) :
    out.Perm (dropParens ts) ∧
    (∀ t ∈ out, t.Kind ≠ .TokLPar ∧ t.Kind ≠ .TokRPar) ∧
    (∀ t : Token F, t.Kind = .TokNum ∨ t.Kind = .TokOp → out.count t = ts.count t) := by
  have hperm := (ToRPN_ok_spec ts out h).1
  refine ⟨hperm, fun t ht => ?_, fun t hk => ?_⟩
  · have := (hperm.mem_iff).1 ht
    simpa [dropParens] using (List.mem_filter.1 this).2
  · rw [hperm.count_eq t]
    unfold dropParens
    rw [List.count_filter]
    rcases hk with hk | hk <;> simp [hk]

/-- Witness of C18 at the tokens of `(1 + 2) * 3`. -/
theorem ToRPN_perm_witness :
    ToRPN [lparTok, numTok 1, opTok OpAdd, numTok 2, rparTok, opTok OpMul, numTok 3]
      = .ok [numTok 1, numTok 2, opTok OpAdd, numTok 3, opTok OpMul] ∧
    [numTok 1, numTok 2, opTok OpAdd, numTok 3, opTok OpMul].Perm
      (dropParens
        [lparTok, numTok 1, opTok OpAdd, numTok 2, rparTok, opTok OpMul, numTok 3]) :=
  ⟨rfl, (ToRPN_perm
    [lparTok, numTok 1, opTok OpAdd, numTok 2, rparTok, opTok OpMul, numTok 3]
    [numTok 1, numTok 2, opTok OpAdd, numTok 3, opTok OpMul] rfl).1⟩

/-- C20: whenever `ToRPN ts` succeeds, the number tokens of its output are, in order, the
number tokens of `ts`. -/
theorem ToRPN_numbers_in_order {F : Type} (ts out : List (Token F))
    (h : ToRPN ts = .ok out) : numbersOf out = numbersOf ts :=
  (ToRPN_ok_spec ts out h).2

/-- Witness of C20 at the tokens of `1 + 2 * 3`. -/
theorem ToRPN_numbers_in_order_witness :
    ToRPN [numTok 1, opTok OpAdd, numTok 2, opTok OpMul, numTok 3]
      = .ok [numTok 1, numTok 2, numTok 3, opTok OpMul, opTok OpAdd] ∧
    numbersOf [numTok 1, numTok 2, numTok 3, opTok OpMul, opTok OpAdd]
      = numbersOf [numTok 1, opTok OpAdd, numTok 2, opTok OpMul, numTok 3] :=
  ⟨rfl, ToRPN_numbers_in_order
    [numTok 1, opTok OpAdd, numTok 2, opTok OpMul, numTok 3]
    [numTok 1, numTok 2, numTok 3, opTok OpMul, opTok OpAdd] rfl⟩

/-! ## Stack depth of the evaluator -/

theorem stepRPN_kind {F : Type} [FloatArith F] (st st' : stackState F) (tok : Token F)
    (h : stepRPN st tok = .ok st') : tok.Kind = .TokNum ∨ tok.Kind = .TokOp := by
  cases hk : tok.Kind with
  | TokNum => exact Or.inl rfl
  | TokOp => exact Or.inr rfl
  | TokLPar => simp [stepRPN, hk] at h
  | TokRPar => simp [stepRPN, hk] at h

theorem Reduce_stepRPN_kinds {F : Type} [FloatArith F] (ts : List (Token F)) :
    ∀ st0 st : stackState F, Reduce ts st0 stepRPN = .ok st →
    ∀ t ∈ ts, t.Kind = .TokNum ∨ t.Kind = .TokOp := by
  induction ts with
  | nil => intro _ _ _ t ht; simp at ht
  | cons u us ih =>
    intro st0 st h t ht
    simp only [Reduce] at h
    cases hs : stepRPN st0 u with
    | error e => simp [hs] at h
    | ok st1 =>
      simp only [hs] at h
      rcases List.mem_cons.1 ht with rfl | ht
      · exact stepRPN_kind st0 st1 _ hs
      · exact ih st1 st h t ht

/-- C19: after the evaluator has processed a token sequence without error, its stack holds
exactly (number of number tokens) minus (number of operator tokens) values; hence whenever
`CalcRPN ts` succeeds, `ts` contains only number and operator tokens and has exactly one
more number token than operator tokens. -/
theorem CalcRPN_stack_depth {F : Type} [FloatArith F] :
    (∀ (ts : List (Token F)) (st : stackState F),
      Reduce ts (rpnInit F) stepRPN = .ok st →
      countKind .TokOp ts ≤ countKind .TokNum ts ∧
        st.stack.length = countKind .TokNum ts - countKind .TokOp ts) ∧
    (∀ (ts : List (Token F)) (v : F), CalcRPN ts = .ok v →
      (∀ t ∈ ts, t.Kind = .TokNum ∨ t.Kind = .TokOp) ∧
        countKind .TokNum ts = countKind .TokOp ts + 1) := by
  refine ⟨fun ts st h => ?_, fun ts v h => ?_⟩
  · have := Reduce_stepRPN_depth ts (rpnInit F) st h
    simp [rpnInit] at this
    omega
  · unfold CalcRPN at h
    split at h
    · cases h
    · cases hr : Reduce ts (rpnInit F) stepRPN with
      | error e => simp [hr] at h
      | ok st =>
        simp only [hr] at h
        refine ⟨Reduce_stepRPN_kinds ts _ st hr, ?_⟩
        have hd := Reduce_stepRPN_depth ts (rpnInit F) st hr
        split at h
        · next w hw =>
          simp [rpnInit, hw] at hd
          omega
        · cases h

/-- Witness of C19: after `5 2 /` the stack holds `2 - 1 = 1` value. -/
theorem CalcRPN_stack_depth_witness :
    Reduce [numTok 5, numTok 2, opTok OpDiv] (rpnInit ℚ) stepRPN = .ok ⟨[5 / 2]⟩ ∧
    (countKind .TokOp [numTok 5, numTok 2, opTok OpDiv]
        ≤ countKind .TokNum [numTok 5, numTok 2, opTok OpDiv] ∧
      (⟨[5 / 2]⟩ : stackState ℚ).stack.length
        = countKind .TokNum [numTok 5, numTok 2, opTok OpDiv]
          - countKind .TokOp [numTok 5, numTok 2, opTok OpDiv]) :=
  ⟨by simp [Reduce, stepRPN, rpnInit, applyOp, numTok, opTok, OpDiv, OpAdd, OpSub, OpMul,
      FloatArith.isZero, FloatArith.div],
    CalcRPN_stack_depth.1 [numTok 5, numTok 2, opTok OpDiv] ⟨[5 / 2]⟩
      (by simp [Reduce, stepRPN, rpnInit, applyOp, numTok, opTok, OpDiv, OpAdd, OpSub, OpMul,
        FloatArith.isZero, FloatArith.div])⟩

/-! ## The tokenizer loop with enough iterations -/

theorem takeWhile_dropWhile_self (p : Nat → Bool) (l : List Nat) :
    (l.dropWhile p).takeWhile p = [] := by
  induction l with
  | nil => simp
  | cons a l ih =>
    by_cases h : p a = true
    · simpa [List.dropWhile_cons, h] using ih
    · simp [List.dropWhile_cons, List.takeWhile_cons, h]

theorem takeWhile_length_le (p : Nat → Bool) (l : List Nat) :
    (l.takeWhile p).length ≤ l.length := by
  have h := congrArg List.length (List.takeWhile_append_dropWhile p l)
  rw [List.length_append] at h
  omega

theorem readNumber_dot {F : Type} [FloatParse F] (s : List Nat)
    (hdot : (s.dropWhile isDigit).head? = some 46) :
    (readNumber s : Except (Err F) (Token F × Nat)) =
      if (s.dropWhile isDigit).tail.takeWhile isDigit = [] then .error .ExpectedDigit
      else
        match FloatParse.parseFloat
          (s.takeWhile isDigit ++ [46] ++ (s.dropWhile isDigit).tail.takeWhile isDigit) with
        | none => .error (.InvalidNumber
            (s.takeWhile isDigit ++ [46] ++ (s.dropWhile isDigit).tail.takeWhile isDigit))
        | some val => .ok (mkNum val, (s.takeWhile isDigit).length + 1
            + ((s.dropWhile isDigit).tail.takeWhile isDigit).length) := by
  simp [readNumber, hdot]

theorem readNumber_nodot {F : Type} [FloatParse F] (s : List Nat)
    (hdot : ¬ (s.dropWhile isDigit).head? = some 46) :
    (readNumber s : Except (Err F) (Token F × Nat)) =
      match FloatParse.parseFloat (s.takeWhile isDigit) with
      | none => .error (.InvalidNumber (s.takeWhile isDigit))
      | some val => .ok (mkNum val, (s.takeWhile isDigit).length) := by
  simp [readNumber, hdot, takeWhile_dropWhile_self]

theorem readNumber_bounds {F : Type} [FloatParse F] (c : Nat) (cs : List Nat)
    (tok : Token F) (n : Nat) (hc : isDigit c = true)
    (h : readNumber (c :: cs) = .ok (tok, n)) : 1 ≤ n ∧ n ≤ (c :: cs).length := by
  have h1 : ((c :: cs).takeWhile isDigit).length
      + ((c :: cs).dropWhile isDigit).length = (c :: cs).length := by
    rw [← List.length_append, List.takeWhile_append_dropWhile]
  have h2 : 1 ≤ ((c :: cs).takeWhile isDigit).length := by
    simp [List.takeWhile_cons, hc]
  by_cases hdot : ((c :: cs).dropWhile isDigit).head? = some 46
  · rw [readNumber_dot _ hdot] at h
    split at h
    · cases h
    · split at h
      · cases h
      · cases h
        have h3 := takeWhile_length_le isDigit ((c :: cs).dropWhile isDigit).tail
        have h4 : ((c :: cs).dropWhile isDigit).tail.length + 1
            = ((c :: cs).dropWhile isDigit).length := by
          cases hr : (c :: cs).dropWhile isDigit with
          | nil => simp [hr] at hdot
          | cons b r => simp
        omega
  · rw [readNumber_nodot _ hdot] at h
    split at h
    · cases h
    · cases h
      omega

theorem tokenizeLoop_fuel {F : Type} [FloatZero F] [FloatParse F] (f : Nat) :
    ∀ (g i : Nat) (rest : List Nat) (toks : List (Token F)),
    rest.length ≤ f → rest.length ≤ g →
    tokenizeLoop f i rest toks = tokenizeLoop g i rest toks := by
  induction f with
  | zero =>
    intro g i rest toks hf _
    have : rest = [] := by simpa using hf
    subst this
    cases g <;> simp [tokenizeLoop]
  | succ f ih =>
    intro g i rest toks hf hg
    cases rest with
    | nil => cases g <;> simp [tokenizeLoop]
    | cons c cs =>
      cases g with
      | zero => simp at hg
      | succ g =>
        have hf2 : cs.length ≤ f := by simpa using hf
        have hg2 : cs.length ≤ g := by simpa using hg
        simp only [tokenizeLoop]
        split
        · exact ih g _ cs _ hf2 hg2
        · split
          · exact ih g _ cs _ hf2 hg2
          · split
            · exact ih g _ cs _ hf2 hg2
            · split
              · exact ih g _ cs _ hf2 hg2
              · split
                · next hd =>
                  cases hr : (readNumber (c :: cs) : Except (Err F) (Token F × Nat)) with
                  | error e => rfl
                  | ok r =>
                    obtain ⟨tok, n⟩ := r
                    have hb := readNumber_bounds c cs tok n hd hr
                    have hlen : ((c :: cs).drop n).length ≤ cs.length := by
                      simp only [List.length_drop, List.length_cons]
                      omega
                    exact ih g _ _ _ (by omega) (by omega)
                · rfl

theorem Tokenize_eq {F : Type} [FloatZero F] [FloatParse F] (expr : List Nat) :
    (Tokenize expr : Except (Err F) (List (Token F))) = tokenizeFrom 0 expr [] := rfl

theorem tokenizeFrom_nil {F : Type} [FloatZero F] [FloatParse F] (i : Nat)
    (toks : List (Token F)) : tokenizeFrom i [] toks = .ok toks := by
  simp [tokenizeFrom, tokenizeLoop]

theorem tokenizeFrom_cons {F : Type} [FloatZero F] [FloatParse F] (i c : Nat)
    (cs : List Nat) (toks : List (Token F)) :
    tokenizeFrom i (c :: cs) toks =
      if isSpace c then tokenizeFrom (i + 1) cs toks
      else if c = 40 then tokenizeFrom (i + 1) cs (toks ++ [mkLPar])
      else if c = 41 then tokenizeFrom (i + 1) cs (toks ++ [mkRPar])
      else if isOpByte c then tokenizeFrom (i + 1) cs (toks ++ [mkOp (c : Int)])
      else if isDigit c then
        match readNumber (c :: cs) with
        | .error e => .error (.AtPos i e)
        | .ok (tok, n) => tokenizeFrom (i + n) ((c :: cs).drop n) (toks ++ [tok])
      else .error (.InvalidChar i c) := by
  simp only [tokenizeFrom, List.length_cons, tokenizeLoop]
  split
  · rfl
  · split
    · rfl
    · split
      · rfl
      · split
        · rfl
        · split
          · next hd =>
            cases hr : (readNumber (c :: cs) : Except (Err F) (Token F × Nat)) with
            | error e => rfl
            | ok r =>
              obtain ⟨tok, n⟩ := r
              have hb := readNumber_bounds c cs tok n hd hr
              have hlen : ((c :: cs).drop n).length ≤ cs.length := by
                simp only [List.length_drop, List.length_cons]
                omega
              exact tokenizeLoop_fuel _ _ _ _ _ hlen (le_refl _)
          · rfl

theorem takeWhile_append_stop (p : Nat → Bool) (l u : List Nat)
    (h : l.dropWhile p ≠ []) :
    (l ++ u).takeWhile p = l.takeWhile p ∧ (l ++ u).dropWhile p = l.dropWhile p ++ u := by
  induction l with
  | nil => simp at h
  | cons a l ih =>
    by_cases ha : p a = true
    · have h2 : l.dropWhile p ≠ [] := by simpa [List.dropWhile_cons, ha] using h
      obtain ⟨e1, e2⟩ := ih h2
      simp [List.takeWhile_cons, List.dropWhile_cons, ha, e1, e2]
    · simp [List.takeWhile_cons, List.dropWhile_cons, ha]

theorem takeWhile_append_all (p : Nat → Bool) (l u : List Nat)
    (h : l.dropWhile p = []) (hu : ∀ b, u.head? = some b → p b = false) :
    (l ++ u).takeWhile p = l ∧ (l ++ u).dropWhile p = u ∧ l.takeWhile p = l := by
  induction l with
  | nil =>
    cases u with
    | nil => simp
    | cons b u =>
      have := hu b rfl
      simp [List.takeWhile_cons, List.dropWhile_cons, this]
  | cons a l ih =>
    by_cases ha : p a = true
    · have h2 : l.dropWhile p = [] := by simpa [List.dropWhile_cons, ha] using h
      obtain ⟨e1, e2, e3⟩ := ih h2
      simp [List.takeWhile_cons, List.dropWhile_cons, ha, e1, e2, e3]
    · simp [List.dropWhile_cons, ha] at h

theorem getLast_of_dropWhile_nil (p : Nat → Bool) (l : List Nat) (hne : l ≠ [])
    (h : l.dropWhile p = []) : ∃ a, l.getLast? = some a ∧ p a = true := by
  have hall : ∀ x ∈ l, p x = true := by
    simpa [List.dropWhile_eq_nil_iff] using h
  refine ⟨l.getLast hne, List.getLast?_eq_getLast l hne, hall _ (List.getLast_mem hne)⟩

theorem lexeme_bounds {F : Type} [FloatZero F] [FloatParse F] (i c : Nat) (cs : List Nat)
    (ts : List (Token F)) (n : Nat) (h : lexeme i (c :: cs) = .ok (ts, n)) :
    1 ≤ n ∧ n ≤ (c :: cs).length := by
  simp only [lexeme] at h
  split at h
  · cases h; simp
  · split at h
    · cases h; simp
    · split at h
      · cases h; simp
      · split at h
        · cases h; simp
        · split at h
          · next hd =>
            cases hr : (readNumber (c :: cs) : Except (Err F) (Token F × Nat)) with
            | error e => simp [hr] at h
            | ok r =>
              obtain ⟨tok, m⟩ := r
              simp only [hr] at h
              cases h
              exact readNumber_bounds c cs tok n hd hr
          · cases h

theorem lexeme_pos_indep {F : Type} [FloatZero F] [FloatParse F] (i j : Nat) (s : List Nat)
    (ts : List (Token F)) (n : Nat) (h : lexeme i s = .ok (ts, n)) :
    lexeme j s = .ok (ts, n) := by
  cases s with
  | nil => simpa [lexeme] using h
  | cons c cs =>
    simp only [lexeme] at h ⊢
    by_cases h1 : isSpace c = true
    · simpa only [h1, if_true] using h
    · simp only [h1, if_false] at h ⊢
      by_cases h2 : c = 40
      · simpa only [h2, if_true] using h
      · simp only [h2, if_false] at h ⊢
        by_cases h3 : c = 41
        · simpa only [h3, if_true] using h
        · simp only [h3, if_false] at h ⊢
          by_cases h4 : isOpByte c = true
          · simpa only [h4, if_true] using h
          · simp only [h4, if_false] at h ⊢
            by_cases h5 : isDigit c = true
            · simp only [h5, if_true] at h ⊢
              cases hr : (readNumber (c :: cs) : Except (Err F) (Token F × Nat)) with
              | error e => simp [hr] at h
              | ok r => simpa [hr] using h
            · simp [h5] at h

theorem tokenizeFrom_lexeme {F : Type} [FloatZero F] [FloatParse F] (i c : Nat)
    (cs : List Nat) (toks : List (Token F)) :
    tokenizeFrom i (c :: cs) toks =
      match lexeme i (c :: cs) with
      | .error e => .error e
      | .ok (ts, n) => tokenizeFrom (i + n) ((c :: cs).drop n) (toks ++ ts) := by
  rw [tokenizeFrom_cons]
  simp only [lexeme]
  split
  · simp
  · split
    · simp
    · split
      · simp
      · split
        · simp
        · split
          · cases hr : (readNumber (c :: cs) : Except (Err F) (Token F × Nat)) with
            | error e => rfl
            | ok r => rfl
          · rfl

theorem readNumber_append {F : Type} [FloatParse F] (s u : List Nat) (tok : Token F)
    (n : Nat) (hne : s ≠ []) (h : readNumber s = .ok (tok, n)) (hb : Boundary s u) :
    readNumber (s ++ u) = .ok (tok, n) := by
  by_cases hr1 : s.dropWhile isDigit = []
  · have hu := hb (getLast_of_dropWhile_nil isDigit s hne hr1)
    obtain ⟨e1, e2, e3⟩ := takeWhile_append_all isDigit s u hr1 (fun b hb' => (hu b hb').1)
    have hnd : ¬ (s.dropWhile isDigit).head? = some 46 := by simp [hr1]
    have hnd2 : ¬ ((s ++ u).dropWhile isDigit).head? = some 46 := by
      rw [e2]
      intro h46
      exact (hu 46 h46).2 rfl
    rw [readNumber_nodot _ hnd, e3] at h
    rw [readNumber_nodot _ hnd2, e1]
    exact h
  · obtain ⟨e1, e2⟩ := takeWhile_append_stop isDigit s u hr1
    have hhead : ((s ++ u).dropWhile isDigit).head? = (s.dropWhile isDigit).head? := by
      rw [e2]
      cases hd : s.dropWhile isDigit with
      | nil => exact absurd hd hr1
      | cons b r => simp
    have htail : ((s ++ u).dropWhile isDigit).tail = (s.dropWhile isDigit).tail ++ u := by
      rw [e2]
      cases hd : s.dropWhile isDigit with
      | nil => exact absurd hd hr1
      | cons b r => simp
    by_cases hdot : (s.dropWhile isDigit).head? = some 46
    · have hdot2 : ((s ++ u).dropWhile isDigit).head? = some 46 := by rw [hhead]; exact hdot
      rw [readNumber_dot _ hdot] at h
      rw [readNumber_dot _ hdot2, e1, htail]
      have hfrac : ((s.dropWhile isDigit).tail ++ u).takeWhile isDigit
          = (s.dropWhile isDigit).tail.takeWhile isDigit := by
        by_cases hr2 : (s.dropWhile isDigit).tail.dropWhile isDigit = []
        · by_cases hnil : (s.dropWhile isDigit).tail = []
          · simp [hnil] at h
          · obtain ⟨a, ha1, ha2⟩ :=
              getLast_of_dropWhile_nil isDigit _ hnil hr2
            have hlast : s.getLast? = some a := by
              have hs := List.takeWhile_append_dropWhile isDigit s
              cases hd : s.dropWhile isDigit with
              | nil => exact absurd hd hr1
              | cons b r =>
                rw [hd] at hs ha1
                simp only [List.tail_cons] at ha1
                have hr : r ≠ [] := by
                  intro hr
                  rw [hr] at ha1
                  simp at ha1
                rw [← hs, List.getLast?_append_of_ne_nil _ (by simp)]
                cases r with
                | nil => exact absurd rfl hr
                | cons r0 rs => simpa [List.getLast?_cons_cons] using ha1
            have hu := hb ⟨a, hlast, ha2⟩
            obtain ⟨f1, _, f3⟩ := takeWhile_append_all isDigit _ u hr2
              (fun b hb' => (hu b hb').1)
            rw [f1, f3]
        · exact (takeWhile_append_stop isDigit _ u hr2).1
      rw [hfrac]
      exact h
    · have hdot2 : ¬ ((s ++ u).dropWhile isDigit).head? = some 46 := by
        rw [hhead]; exact hdot
      rw [readNumber_nodot _ hdot] at h
      rw [readNumber_nodot _ hdot2, e1]
      exact h

theorem lexeme_append {F : Type} [FloatZero F] [FloatParse F] (i c : Nat)
    (cs u : List Nat) (ts : List (Token F)) (n : Nat)
    (h : lexeme i (c :: cs) = .ok (ts, n)) (hb : Boundary (c :: cs) u) :
    lexeme i (c :: (cs ++ u)) = .ok (ts, n) := by
  simp only [lexeme] at h ⊢
  by_cases h1 : isSpace c = true
  · simpa only [h1, if_true] using h
  · simp only [h1, if_false] at h ⊢
    by_cases h2 : c = 40
    · simpa only [h2, if_true] using h
    · simp only [h2, if_false] at h ⊢
      by_cases h3 : c = 41
      · simpa only [h3, if_true] using h
      · simp only [h3, if_false] at h ⊢
        by_cases h4 : isOpByte c = true
        · simpa only [h4, if_true] using h
        · simp only [h4, if_false] at h ⊢
          by_cases h5 : isDigit c = true
          · simp only [h5, if_true] at h ⊢
            cases hr : (readNumber (c :: cs) : Except (Err F) (Token F × Nat)) with
            | error e => simp [hr] at h
            | ok r =>
              obtain ⟨tok, m⟩ := r
              have := readNumber_append (c :: cs) u tok m (by simp) hr hb
              rw [List.cons_append] at this
              rw [this]
              simpa [hr] using h
          · simp [h5] at h

theorem Boundary_drop (s u : List Nat) (n : Nat) (hb : Boundary s u) :
    Boundary (s.drop n) u := by
  intro ⟨a, ha, hd⟩
  apply hb
  refine ⟨a, ?_, hd⟩
  have hne : s.drop n ≠ [] := by
    intro h0
    rw [h0] at ha
    simp at ha
  have hs := List.take_append_drop n s
  rw [← hs, List.getLast?_append_of_ne_nil _ hne]
  exact ha

theorem tokenizeFrom_shift {F : Type} [FloatZero F] [FloatParse F] (k : Nat) :
    ∀ (rest : List Nat), rest.length ≤ k →
    ∀ (j : Nat) (acc r : List (Token F)), tokenizeFrom j rest acc = .ok r →
    ∃ r', r = acc ++ r' ∧
      ∀ (i : Nat) (toks : List (Token F)), tokenizeFrom i rest toks = .ok (toks ++ r') := by
  induction k with
  | zero =>
    intro rest hlen j acc r h
    have : rest = [] := by simpa using hlen
    subst this
    rw [tokenizeFrom_nil] at h
    cases h
    exact ⟨[], by simp, fun i toks => by simp [tokenizeFrom_nil]⟩
  | succ k ih =>
    intro rest hlen j acc r h
    cases rest with
    | nil =>
      rw [tokenizeFrom_nil] at h
      cases h
      exact ⟨[], by simp, fun i toks => by simp [tokenizeFrom_nil]⟩
    | cons c cs =>
      rw [tokenizeFrom_lexeme] at h
      cases hl : (lexeme j (c :: cs) : Except (Err F) (List (Token F) × Nat)) with
      | error e => simp [hl] at h
      | ok p =>
        obtain ⟨ts, n⟩ := p
        simp only [hl] at h
        have hbd := lexeme_bounds j c cs ts n hl
        have hlen2 : ((c :: cs).drop n).length ≤ k := by
          simp only [List.length_drop, List.length_cons] at hlen ⊢
          omega
        obtain ⟨r2, e1, e2⟩ := ih _ hlen2 _ _ _ h
        refine ⟨ts ++ r2, by simp [e1], fun i toks => ?_⟩
        rw [tokenizeFrom_lexeme, lexeme_pos_indep j i _ ts n hl]
        simp only
        rw [e2, List.append_assoc]

theorem tokenizeFrom_append {F : Type} [FloatZero F] [FloatParse F] (k : Nat) :
    ∀ (s : List Nat), s.length ≤ k →
    ∀ (i : Nat) (toks toks' : List (Token F)) (u : List Nat),
    tokenizeFrom i s toks = .ok toks' → Boundary s u →
    tokenizeFrom i (s ++ u) toks = tokenizeFrom (i + s.length) u toks' := by
  induction k with
  | zero =>
    intro s hlen i toks toks' u h _
    have : s = [] := by simpa using hlen
    subst this
    rw [tokenizeFrom_nil] at h
    cases h
    simp
  | succ k ih =>
    intro s hlen i toks toks' u h hb
    cases s with
    | nil =>
      rw [tokenizeFrom_nil] at h
      cases h
      simp
    | cons c cs =>
      rw [tokenizeFrom_lexeme] at h
      cases hl : (lexeme i (c :: cs) : Except (Err F) (List (Token F) × Nat)) with
      | error e => simp [hl] at h
      | ok p =>
        obtain ⟨ts, n⟩ := p
        simp only [hl] at h
        have hbd := lexeme_bounds i c cs ts n hl
        have hlen2 : ((c :: cs).drop n).length ≤ k := by
          simp only [List.length_drop, List.length_cons] at hlen ⊢
          omega
        have hrec := ih _ hlen2 _ _ _ u h (Boundary_drop _ u n hb)
        rw [List.cons_append, tokenizeFrom_lexeme, lexeme_append i c cs u ts n hl hb]
        simp only
        rw [← List.cons_append, List.drop_append_of_le_length hbd.2, hrec]
        congr 1
        simp only [List.length_drop, List.length_cons]
        simp only [List.length_cons] at hbd
        omega

theorem tokenizeFrom_spaces {F : Type} [FloatZero F] [FloatParse F] (w : List Nat) :
    (∀ x ∈ w, isSpace x = true) →
    ∀ (i : Nat) (t : List Nat) (toks : List (Token F)),
    tokenizeFrom i (w ++ t) toks = tokenizeFrom (i + w.length) t toks := by
  induction w with
  | nil => intro _ i t toks; simp
  | cons x w ih =>
    intro hw i t toks
    have hx : isSpace x = true := hw x (List.mem_cons_self _ _)
    rw [List.cons_append, tokenizeFrom_cons]
    simp only [hx, if_true]
    rw [ih (fun y hy => hw y (List.mem_cons_of_mem _ hy))]
    congr 1
    simp only [List.length_cons]
    omega

theorem stepRPN_ne_empty {F : Type} [FloatArith F] (st : stackState F) (tok : Token F) :
    stepRPN st tok ≠ .error .EmptyExpr := by
  cases hk : tok.Kind with
  | TokNum => simp [stepRPN, hk]
  | TokOp =>
    simp only [stepRPN, hk]
    split
    · next a b rest _ =>
      have : applyOp tok.Op b a ≠ (.error .EmptyExpr : Except (Err F) F) := by
        unfold applyOp
        repeat' split
        all_goals simp
      cases happ : applyOp tok.Op b a with
      | error e =>
        simp only
        intro h
        apply this
        rw [happ]
        exact congrArg Except.error (Except.error.inj h)
      | ok v => simp
    · simp
  | TokLPar => simp [stepRPN, hk]
  | TokRPar => simp [stepRPN, hk]

theorem Reduce_stepRPN_ne_empty {F : Type} [FloatArith F] (ts : List (Token F)) :
    ∀ st : stackState F, Reduce ts st stepRPN ≠ .error .EmptyExpr := by
  induction ts with
  | nil => intro st; simp [Reduce]
  | cons t ts ih =>
    intro st
    simp only [Reduce]
    cases hs : stepRPN st t with
    | error e =>
      simp only
      intro h
      apply stepRPN_ne_empty st t
      rw [hs]
      exact h
    | ok st1 => exact ih st1

/-! ## Claims on the tokenizer and the pipeline -/

/-- C11: `CalcRPN` fails with `EmptyExpr` if and only if it is given zero tokens; in
particular the pipeline `Tokenize`, `ToRPN`, `CalcRPN` applied to an empty or
whitespace-only string ends in `EmptyExpr`. -/
theorem CalcRPN_empty_iff {F : Type} [FloatArith F] [FloatZero F] [FloatParse F] :
    (∀ ts : List (Token F), CalcRPN ts = .error .EmptyExpr ↔ ts = []) ∧
    (∀ w : List Nat, (∀ x ∈ w, isSpace x = true) →
      (Tokenize w : Except (Err F) (List (Token F))) = .ok [] ∧
      ToRPN ([] : List (Token F)) = .ok [] ∧
      CalcRPN ([] : List (Token F)) = .error .EmptyExpr) := by
  refine ⟨fun ts => ⟨fun h => ?_, fun h => by simp [h, CalcRPN]⟩, fun w hw => ⟨?_, ?_, ?_⟩⟩
  · by_contra hne
    have hlen : ts.length ≠ 0 := by simpa using hne
    simp only [CalcRPN, hlen, if_false] at h
    cases hr : Reduce ts (rpnInit F) stepRPN with
    | error e =>
      simp only [hr] at h
      apply Reduce_stepRPN_ne_empty ts (rpnInit F)
      rw [hr]
      exact congrArg Except.error (Except.error.inj h)
    | ok st =>
      simp only [hr] at h
      split at h <;> cases h
  · have := tokenizeFrom_spaces w hw 0 [] ([] : List (Token F))
    rw [List.append_nil] at this
    rw [Tokenize_eq, this, tokenizeFrom_nil]
  · simp [ToRPN, Reduce, syInit, drainOps]
  · simp [CalcRPN]

/-- Witness of C11 at the string of a blank and a tab. -/
theorem CalcRPN_empty_iff_witness :
    (∀ x ∈ [32, 9], isSpace x = true) ∧
    (Tokenize [32, 9] : Except (Err ℚ) (List (Token ℚ))) = .ok [] ∧
    ToRPN ([] : List (Token ℚ)) = .ok [] ∧
    CalcRPN ([] : List (Token ℚ)) = .error .EmptyExpr :=
  ⟨by decide, CalcRPN_empty_iff.2 [32, 9] (by decide)⟩

theorem isDigit_not_other (x : Nat) (h : isDigit x = true) :
    isSpace x = false ∧ x ≠ 40 ∧ x ≠ 41 ∧ isOpByte x = false ∧ x ≠ 46 := by
  simp only [isDigit, decide_eq_true_eq] at h
  refine ⟨?_, by omega, by omega, ?_, by omega⟩
  · simp only [isSpace, Bool.or_eq_false_iff, decide_eq_false_iff_not]
    omega
  · simp only [isOpByte, Bool.or_eq_false_iff, decide_eq_false_iff_not]
    omega

/-- C12: invalid character. If `Tokenize pre` succeeds, the byte `c` is not whitespace, not
a parenthesis, not one of `+ - * /` and not a digit, and either `c` is not `'.'` or `pre`
does not end with a digit, then `Tokenize (pre ++ c ++ rest)` fails with `InvalidChar`
reporting the byte position `len(pre)` and the byte `c`. -/
theorem Tokenize_invalid_char {F : Type} [FloatZero F] [FloatParse F]
    (pre rest : List Nat) (c : Nat)
    (hc : isSpace c = false ∧ c ≠ 40 ∧ c ≠ 41 ∧ isOpByte c = false ∧ isDigit c = false)
    (hpre : ∃ toks : List (Token F), Tokenize pre = .ok toks)
    (hdot : c ≠ 46 ∨ ¬ ∃ a, pre.getLast? = some a ∧ isDigit a = true) :
    (Tokenize (pre ++ c :: rest) : Except (Err F) (List (Token F)))
      = .error (.InvalidChar pre.length c) := by
  obtain ⟨toks, hpre⟩ := hpre
  obtain ⟨c1, c2, c3, c4, c5⟩ := hc
  have hb : Boundary pre (c :: rest) := by
    intro hlast b hb
    simp only [List.head?_cons, Option.some.injEq] at hb
    subst hb
    refine ⟨c5, ?_⟩
    rcases hdot with h | h
    · exact h
    · exact absurd hlast h
  rw [Tokenize_eq] at hpre ⊢
  rw [tokenizeFrom_append pre.length pre (le_refl _) 0 [] toks (c :: rest) hpre hb,
    tokenizeFrom_cons]
  simp [c1, c2, c3, c4, c5]

/-- C13: malformed decimal. If `Tokenize pre` succeeds, `pre` does not end with a digit,
`d` is a non-empty run of digits and `rest` is empty or starts with a byte that is not a
digit, then `Tokenize (pre ++ d ++ "." ++ rest)` fails with `ExpectedDigit`, reported at the
start position `len(pre)` of the literal. -/
theorem Tokenize_expected_digit {F : Type} [FloatZero F] [FloatParse F]
    (pre d rest : List Nat)
    (hpre : ∃ toks : List (Token F), Tokenize pre = .ok toks)
    (hlast : ¬ ∃ a, pre.getLast? = some a ∧ isDigit a = true)
    (hd : d ≠ []) (hdig : ∀ x ∈ d, isDigit x = true)
    (hrest : ∀ b, rest.head? = some b → isDigit b = false) :
    (Tokenize (pre ++ d ++ [46] ++ rest) : Except (Err F) (List (Token F)))
      = .error (.AtPos pre.length .ExpectedDigit) := by
  obtain ⟨toks, hpre⟩ := hpre
  have hb : Boundary pre (d ++ 46 :: rest) := fun h => absurd h hlast
  have hnum : (readNumber (d ++ 46 :: rest) : Except (Err F) (Token F × Nat))
      = .error .ExpectedDigit := by
    have e1 : (d ++ 46 :: rest).dropWhile isDigit = 46 :: rest := by
      rw [List.dropWhile_append_of_pos hdig]
      simp [List.dropWhile_cons, isDigit]
    have e2 : rest.takeWhile isDigit = [] := by
      cases rest with
      | nil => rfl
      | cons b r => simp [List.takeWhile_cons, hrest b rfl]
    rw [readNumber_dot _ (by rw [e1]; rfl), e1]
    simp [e2]
  rw [Tokenize_eq] at hpre ⊢
  rw [List.append_assoc, List.append_assoc,
    tokenizeFrom_append pre.length pre (le_refl _) 0 [] toks _ hpre (by simpa using hb)]
  cases d with
  | nil => exact absurd rfl hd
  | cons x d =>
    obtain ⟨x1, x2, x3, x4, _⟩ := isDigit_not_other x (hdig x (List.mem_cons_self _ _))
    simp only [List.cons_append, List.singleton_append] at hnum ⊢
    rw [tokenizeFrom_cons]
    simp [x1, x2, x3, x4, hdig x (List.mem_cons_self _ _), hnum]

/-- C14: whitespace is insignificant between tokens. If `Tokenize` succeeds on `s` and on
`t` and `w` is a non-empty string of blanks, tabs, newlines and carriage returns, then
`Tokenize (s ++ w ++ t)` succeeds with the tokens of `s` followed by the tokens of `t`, and
`Tokenize w` is the empty token sequence. -/
theorem Tokenize_whitespace {F : Type} [FloatZero F] [FloatParse F]
    (s w t : List Nat) (ts tt : List (Token F))
    (hs : Tokenize s = .ok ts) (ht : Tokenize t = .ok tt)
    (hw : w ≠ []) (hws : ∀ x ∈ w, isSpace x = true) :
    Tokenize (s ++ w ++ t) = .ok (ts ++ tt) ∧
      (Tokenize w : Except (Err F) (List (Token F))) = .ok [] := by
  have hb : Boundary s (w ++ t) := by
    intro _ b hb
    cases w with
    | nil => exact absurd rfl hw
    | cons x w =>
      simp only [List.cons_append, List.head?_cons, Option.some.injEq] at hb
      subst hb
      have hx := hws x (List.mem_cons_self _ _)
      refine ⟨?_, ?_⟩
      · cases hdg : isDigit x with
        | false => rfl
        | true => simp [(isDigit_not_other x hdg).1] at hx
      · intro h46
        subst h46
        simp [isSpace] at hx
  rw [Tokenize_eq] at hs ht ⊢
  obtain ⟨r, e1, e2⟩ := tokenizeFrom_shift t.length t (le_refl _) 0 [] tt ht
  refine ⟨?_, ?_⟩
  · rw [List.append_assoc, tokenizeFrom_append s.length s (le_refl _) 0 [] ts _ hs hb,
      tokenizeFrom_spaces w hws, e2, e1]
    simp
  · have := tokenizeFrom_spaces w hws 0 [] ([] : List (Token F))
    rw [List.append_nil] at this
    rw [Tokenize_eq, this, tokenizeFrom_nil]

/-! ## Number literals and their rendering -/

theorem readNumber_literal {F : Type} [FloatParse F] (s : List Nat) (h : NumberLiteral s) :
    (readNumber s : Except (Err F) (Token F × Nat)) =
      match FloatParse.parseFloat s with
      | none => .error (.InvalidNumber s)
      | some val => .ok (mkNum val, s.length) := by
  obtain ⟨d1, hne1, hd1, hs | ⟨d2, hne2, hd2, hs⟩⟩ := h
  · subst hs
    have e1 : s.dropWhile isDigit = [] := by
      rw [List.dropWhile_eq_nil_iff]; exact hd1
    have e2 : s.takeWhile isDigit = s := by
      rw [List.takeWhile_eq_self_iff]; exact hd1
    rw [readNumber_nodot _ (by simp [e1]), e2]
  · have e1 : s.dropWhile isDigit = 46 :: d2 := by
      rw [hs, List.append_assoc, List.dropWhile_append_of_pos hd1]
      simp [List.dropWhile_cons, isDigit]
    have e2 : s.takeWhile isDigit = d1 := by
      rw [hs, List.append_assoc, List.takeWhile_append_of_pos hd1]
      simp [List.takeWhile_cons, isDigit]
    have e3 : d2.takeWhile isDigit = d2 := by
      rw [List.takeWhile_eq_self_iff]; exact hd2
    rw [readNumber_dot _ (by rw [e1]; rfl), e1, e2]
    simp only [List.tail_cons, e3, hne2, if_false]
    rw [← hs]
    have hl : d1.length + 1 + d2.length = s.length := by
      rw [hs]; simp; omega
    rw [hl]

theorem NumberLiteral_head (s : List Nat) (h : NumberLiteral s) :
    ∃ x rest, s = x :: rest ∧ isDigit x = true := by
  obtain ⟨d1, hne1, hd1, hs | ⟨d2, _, _, hs⟩⟩ := h
  · cases d1 with
    | nil => exact absurd rfl hne1
    | cons x d => exact ⟨x, d, hs, hd1 x (List.mem_cons_self _ _)⟩
  · cases d1 with
    | nil => exact absurd rfl hne1
    | cons x d => exact ⟨x, d ++ [46] ++ d2, by simp [hs], hd1 x (List.mem_cons_self _ _)⟩

theorem Tokenize_literal {F : Type} [FloatZero F] [FloatParse F] (s : List Nat)
    (h : NumberLiteral s) :
    (Tokenize s : Except (Err F) (List (Token F))) =
      match FloatParse.parseFloat s with
      | none => .error (.AtPos 0 (.InvalidNumber s))
      | some val => .ok [mkNum val] := by
  obtain ⟨x, rest, hs, hx⟩ := NumberLiteral_head s h
  obtain ⟨x1, x2, x3, x4, _⟩ := isDigit_not_other x hx
  have hr := readNumber_literal (F := F) s h
  rw [Tokenize_eq]
  subst hs
  rw [tokenizeFrom_cons]
  simp only [x1, x2, x3, x4, hx, if_true, if_false, Bool.false_eq_true]
  rw [hr]
  cases (FloatParse.parseFloat (x :: rest) : Option F) with
  | none => rfl
  | some val => simp [tokenizeFrom_nil]

theorem natDigits_spec (n : Nat) :
    natDigits n ≠ [] ∧ ∀ x ∈ natDigits n, isDigit x = true := by
  unfold natDigits
  split
  · simp [isDigit]
  · next hn =>
    refine ⟨?_, ?_⟩
    · simpa [Nat.digits_ne_nil_iff_ne_zero] using hn
    · intro x hx
      simp only [List.mem_map, List.mem_reverse] at hx
      obtain ⟨d, hd, rfl⟩ := hx
      have := Nat.digits_lt_base (by norm_num : 1 < 10) hd
      simp only [isDigit, decide_eq_true_eq]
      omega

theorem FormatTokens_single {F : Type} [FloatFormat F] (x : F) :
    FormatTokens [mkNum x] = formatNumber x := by
  simp [FormatTokens, formatPart, mkNum, List.intercalate]

theorem digitsValue_zeros (n : Nat) : ∀ acc : Nat,
    List.foldl (fun acc d => 10 * acc + (d - 48)) acc (List.replicate n 48)
      = acc * 10 ^ n := by
  induction n with
  | zero => intro acc; simp
  | succ n ih =>
    intro acc
    rw [List.replicate_succ, List.foldl_cons, ih, pow_succ]
    ring

theorem ratParse_overflow : ratParse (49 :: List.replicate 309 48) = none := by
  have hall : ∀ x ∈ 49 :: List.replicate 309 48, isDigit x = true := by
    intro x hx
    rcases List.mem_cons.1 hx with rfl | hx
    · rfl
    · rw [List.eq_of_mem_replicate hx]; rfl
  have e1 : (49 :: List.replicate 309 48).dropWhile isDigit = [] := by
    rw [List.dropWhile_eq_nil_iff]; exact hall
  have e2 : (49 :: List.replicate 309 48).takeWhile isDigit = 49 :: List.replicate 309 48 := by
    rw [List.takeWhile_eq_self_iff]; exact hall
  have e3 : digitsValue (49 :: List.replicate 309 48) = 10 ^ 309 := by
    simp only [digitsValue, List.foldl_cons]
    rw [digitsValue_zeros]
    norm_num
  have e4 : ratRange ((10 ^ 309 : ℕ) : ℚ) = none := by
    unfold ratRange
    rw [if_neg]
    norm_num
  simp only [ratParse, e1, e2, e3, e4]
  split <;> rfl

theorem ratParse_one : ratParse [49] = some 1 := by
  have e1 : List.dropWhile isDigit [49] = [] := by decide
  have e2 : List.takeWhile isDigit [49] = [49] := by decide
  have e3 : digitsValue [49] = 1 := by decide
  simp only [ratParse, e1, e2, e3]
  simp [ratRange]
  norm_num

theorem Tokenize_one :
    (Tokenize [49] : Except (Err ℚ) (List (Token ℚ))) = .ok [numTok 1] := by
  have hlit : NumberLiteral [49] := ⟨[49], by simp, by decide, Or.inl rfl⟩
  have hp : (FloatParse.parseFloat [49] : Option ℚ) = some 1 := ratParse_one
  rw [Tokenize_literal _ hlit, hp]
  rfl

theorem Tokenize_plus :
    (Tokenize [43] : Except (Err ℚ) (List (Token ℚ))) = .ok [opTok OpAdd] := by
  simp [Tokenize_eq, tokenizeFrom_cons, tokenizeFrom_nil, isSpace, isOpByte, mkOp, opTok,
    OpAdd, FloatZero.zero]

theorem Tokenize_one_plus :
    (Tokenize [49, 32, 43, 32] : Except (Err ℚ) (List (Token ℚ)))
      = .ok [numTok 1, opTok OpAdd] := by
  have h1 := Tokenize_one
  rw [Tokenize_eq] at h1 ⊢
  have hb : Boundary [49] [32, 43, 32] := by
    intro _ b hb
    simp only [List.head?_cons, Option.some.injEq] at hb
    subst hb
    decide
  have := tokenizeFrom_append 1 [49] (le_refl _) 0 [] [numTok 1] [32, 43, 32] h1 hb
  simp only [List.singleton_append] at this
  rw [this]
  simp [tokenizeFrom_cons, tokenizeFrom_nil, isSpace, isOpByte, mkOp, opTok, OpAdd,
    FloatZero.zero]

/-- Witness of C12: `1 + a` fails with `InvalidChar` at position 4; byte `97` is `'a'`. -/
theorem Tokenize_invalid_char_witness :
    (isSpace 97 = false ∧ 97 ≠ 40 ∧ 97 ≠ 41 ∧ isOpByte 97 = false ∧ isDigit 97 = false) ∧
    (∃ toks : List (Token ℚ), Tokenize [49, 32, 43, 32] = .ok toks) ∧
    (97 ≠ 46 ∨ ¬ ∃ a, [49, 32, 43, 32].getLast? = some a ∧ isDigit a = true) ∧
    (Tokenize ([49, 32, 43, 32] ++ 97 :: []) : Except (Err ℚ) (List (Token ℚ)))
      = .error (.InvalidChar 4 97) :=
  ⟨by decide, ⟨_, Tokenize_one_plus⟩, Or.inl (by decide),
    Tokenize_invalid_char [49, 32, 43, 32] [] 97 (by decide) ⟨_, Tokenize_one_plus⟩
      (Or.inl (by decide))⟩

/-- Witness of C13: `1.` fails with `ExpectedDigit` at position 0. -/
theorem Tokenize_expected_digit_witness :
    (∃ toks : List (Token ℚ), Tokenize [] = .ok toks) ∧
    (¬ ∃ a, ([] : List Nat).getLast? = some a ∧ isDigit a = true) ∧
    ([49] ≠ [] ∧ ∀ x ∈ [49], isDigit x = true) ∧
    (∀ b, ([] : List Nat).head? = some b → isDigit b = false) ∧
    (Tokenize ([] ++ [49] ++ [46] ++ []) : Except (Err ℚ) (List (Token ℚ)))
      = .error (.AtPos 0 .ExpectedDigit) :=
  ⟨⟨[], rfl⟩, by simp, ⟨by simp, by decide⟩, by simp,
    Tokenize_expected_digit [] [49] [] ⟨[], rfl⟩ (by simp) (by simp) (by decide) (by simp)⟩

/-- Witness of C14: `1`, a blank, `+` gives the tokens of `1` followed by those of `+`. -/
theorem Tokenize_whitespace_witness :
    (Tokenize [49] : Except (Err ℚ) (List (Token ℚ))) = .ok [numTok 1] ∧
    (Tokenize [43] : Except (Err ℚ) (List (Token ℚ))) = .ok [opTok OpAdd] ∧
    ([32] ≠ [] ∧ ∀ x ∈ [32], isSpace x = true) ∧
    (Tokenize ([49] ++ [32] ++ [43]) : Except (Err ℚ) (List (Token ℚ)))
      = .ok ([numTok 1] ++ [opTok OpAdd]) :=
  ⟨Tokenize_one, Tokenize_plus, ⟨by simp, by decide⟩,
    (Tokenize_whitespace [49] [32] [43] [numTok 1] [opTok OpAdd] Tokenize_one Tokenize_plus
      (by simp) (by decide)).1⟩

/-! ## Rounding to binary64, decimal renderings and the shortest decimal -/

theorem roundHalfEven_intCast (n : ℤ) : roundHalfEven (n : ℚ) = n := by
  simp [roundHalfEven]

theorem roundHalfEven_bounds (r : ℚ) :
    ⌊r⌋ ≤ roundHalfEven r ∧ roundHalfEven r ≤ ⌊r⌋ + 1 := by
  unfold roundHalfEven
  split
  · omega
  · split
    · omega
    · split <;> omega

theorem ulpExp_ge (q : ℚ) : -1074 ≤ ulpExp q := le_max_right _ _

theorem two_zpow_pos (e : ℤ) : (0 : ℚ) < 2 ^ e := zpow_pos (by norm_num) e

theorem round64_of_onGrid (q : ℚ) (h : OnGrid q) : round64 q = q := by
  obtain ⟨n, hn⟩ := h
  have hne : (2 : ℚ) ^ ulpExp q ≠ 0 := (two_zpow_pos _).ne'
  have hdiv : q / 2 ^ ulpExp q = n := by
    rw [div_eq_iff hne]; exact hn
  unfold round64
  rw [hdiv, roundHalfEven_intCast]
  exact hn.symm

theorem onGrid_of (q : ℚ) (n e : ℤ) (hq : 0 < q) (hn : q = n * 2 ^ e)
    (he : -1074 ≤ e) (hlt : q < 2 ^ (e + 53)) : OnGrid q := by
  have hlog : Int.log 2 q < e + 53 := by
    have := (Int.lt_zpow_iff_log_lt (b := 2) (by norm_num) hq (x := e + 53)).1
    exact this (by exact_mod_cast hlt)
  have hu : ulpExp q ≤ e := by
    unfold ulpExp
    exact max_le (by omega) he
  obtain ⟨k, hk⟩ : ∃ k : ℕ, e = ulpExp q + k := ⟨(e - ulpExp q).toNat, by omega⟩
  refine ⟨n * 2 ^ k, ?_⟩
  calc q = n * 2 ^ e := hn
    _ = n * (2 ^ ulpExp q * 2 ^ (k : ℤ)) := by
      rw [hk, zpow_add₀ (by norm_num : (2 : ℚ) ≠ 0)]
    _ = ((n * 2 ^ k : ℤ) : ℚ) * 2 ^ ulpExp q := by
      push_cast
      rw [zpow_natCast]
      ring

theorem onGrid_round64 (q : ℚ) (hq : 0 ≤ q) : 0 ≤ round64 q ∧ OnGrid (round64 q) := by
  have hpos := two_zpow_pos (ulpExp q)
  have hr0 : 0 ≤ q / 2 ^ ulpExp q := div_nonneg hq hpos.le
  have hm0 : 0 ≤ roundHalfEven (q / 2 ^ ulpExp q) :=
    le_trans (Int.floor_nonneg.2 hr0) (roundHalfEven_bounds _).1
  have hx0 : 0 ≤ round64 q := by
    unfold round64
    exact mul_nonneg (by exact_mod_cast hm0) hpos.le
  refine ⟨hx0, ?_⟩
  rcases hx0.lt_or_eq with hxpos | hxz
  swap
  · rw [← hxz]; exact ⟨0, by simp⟩
  have hqpos : 0 < q := by
    rcases hq.lt_or_eq with h | h
    · exact h
    · exfalso
      rw [← h] at hxpos
      simp [round64, roundHalfEven] at hxpos
  -- the scaled value is below 2^53
  have hlt : q < 2 ^ (ulpExp q + 53) := by
    have h1 := Int.lt_zpow_succ_log_self (b := 2) (by norm_num) q
    have h2 : Int.log 2 q + 1 ≤ ulpExp q + 53 := by
      have := le_max_left (Int.log 2 q - 52) (-1074)
      unfold ulpExp
      omega
    calc q < ((2 : ℕ) : ℚ) ^ (Int.log 2 q + 1) := h1
      _ ≤ 2 ^ (ulpExp q + 53) := by
        push_cast
        exact zpow_le_zpow_right₀ (by norm_num) h2
  have hr53 : q / 2 ^ ulpExp q < 2 ^ (53 : ℕ) := by
    rw [div_lt_iff₀ hpos]
    calc q < 2 ^ (ulpExp q + 53) := hlt
      _ = 2 ^ (53 : ℕ) * 2 ^ ulpExp q := by
        rw [zpow_add₀ (by norm_num : (2 : ℚ) ≠ 0)]
        norm_cast
        ring
  have hfl : ⌊q / 2 ^ ulpExp q⌋ < 2 ^ 53 := by
    rw [Int.floor_lt]
    exact_mod_cast hr53
  have hm53 : roundHalfEven (q / 2 ^ ulpExp q) ≤ 2 ^ 53 := by
    have := (roundHalfEven_bounds (q / 2 ^ ulpExp q)).2
    omega
  rcases hm53.lt_or_eq with hlt53 | heq53
  · refine onGrid_of (round64 q) (roundHalfEven (q / 2 ^ ulpExp q)) (ulpExp q) hxpos rfl
      (ulpExp_ge q) ?_
    unfold round64
    rw [zpow_add₀ (by norm_num : (2 : ℚ) ≠ 0), mul_comm ((2 : ℚ) ^ ulpExp q)]
    apply mul_lt_mul_of_pos_right _ hpos
    exact_mod_cast hlt53
  · refine onGrid_of (round64 q) (2 ^ 52) (ulpExp q + 1) hxpos ?_
      (by have := ulpExp_ge q; omega) ?_
    · unfold round64
      rw [heq53, zpow_add₀ (by norm_num : (2 : ℚ) ≠ 0)]
      push_cast
      ring
    · unfold round64
      rw [heq53]
      have : (2 : ℚ) ^ (ulpExp q + 1 + 53) = 2 * (2 ^ (53 : ℕ) * 2 ^ ulpExp q) := by
        rw [zpow_add₀ (by norm_num : (2 : ℚ) ≠ 0), zpow_add₀ (by norm_num : (2 : ℚ) ≠ 0)]
        norm_cast
        ring
      rw [this]
      push_cast
      have hh : (0 : ℚ) < 2 ^ (53 : ℕ) * 2 ^ ulpExp q := mul_pos (by positivity) hpos
      linarith

theorem round64_idem (q : ℚ) (hq : 0 ≤ q) : round64 (round64 q) = round64 q :=
  round64_of_onGrid _ (onGrid_round64 q hq).2

theorem decimalValue_digits (d : List Nat) (hne : d ≠ []) (hd : ∀ x ∈ d, isDigit x = true) :
    decimalValue d = some (digitsValue d : ℚ) := by
  have e1 : d.dropWhile isDigit = [] := by
    rw [List.dropWhile_eq_nil_iff]; exact hd
  have e2 : d.takeWhile isDigit = d := by
    rw [List.takeWhile_eq_self_iff]; exact hd
  simp only [decimalValue, e1, e2, hne, if_false]

theorem decimalValue_point (d1 d2 : List Nat) (hne1 : d1 ≠ [])
    (hd1 : ∀ x ∈ d1, isDigit x = true) (hne2 : d2 ≠ []) (hd2 : ∀ x ∈ d2, isDigit x = true) :
    decimalValue (d1 ++ [46] ++ d2)
      = some ((digitsValue d1 : ℚ) + (digitsValue d2 : ℚ) / 10 ^ d2.length) := by
  have e1 : (d1 ++ [46] ++ d2).dropWhile isDigit = 46 :: d2 := by
    rw [List.append_assoc, List.dropWhile_append_of_pos hd1]
    simp [List.dropWhile_cons, isDigit]
  have e2 : (d1 ++ [46] ++ d2).takeWhile isDigit = d1 := by
    rw [List.append_assoc, List.takeWhile_append_of_pos hd1]
    simp [List.takeWhile_cons, isDigit]
  have e3 : d2.all isDigit = true := by
    rw [List.all_eq_true]; exact hd2
  unfold decimalValue
  simp only [e1, e2]
  rw [if_pos ⟨trivial, hne1, hne2, e3⟩]

theorem digitsValue_foldl (l : List Nat) : ∀ acc : Nat,
    List.foldl (fun acc d => 10 * acc + (d - 48)) acc l
      = acc * 10 ^ l.length + digitsValue l := by
  induction l with
  | nil => intro acc; simp [digitsValue]
  | cons a l ih =>
    intro acc
    simp only [digitsValue, List.foldl_cons, List.length_cons]
    rw [ih, ih (10 * 0 + (a - 48))]
    ring

theorem digitsValue_append (l1 l2 : List Nat) :
    digitsValue (l1 ++ l2) = digitsValue l1 * 10 ^ l2.length + digitsValue l2 := by
  unfold digitsValue
  rw [List.foldl_append, digitsValue_foldl]
  rfl

theorem digitsValue_natDigits (n : Nat) : digitsValue (natDigits n) = n := by
  unfold natDigits
  split
  · next h => subst h; rfl
  · have key : ∀ l : List Nat,
        digitsValue (l.reverse.map (fun d => d + 48)) = Nat.ofDigits 10 l := by
      intro l
      induction l with
      | nil => rfl
      | cons a l ih =>
        rw [List.reverse_cons, List.map_append, digitsValue_append, ih, Nat.ofDigits_cons]
        simp [digitsValue]
        ring
    rw [key, Nat.ofDigits_digits]

theorem padDigits_spec (w : Nat) : ∀ n : Nat,
    (padDigits w n).length = w ∧ (∀ x ∈ padDigits w n, isDigit x = true) ∧
      digitsValue (padDigits w n) = n % 10 ^ w := by
  induction w with
  | zero => intro n; simp [padDigits, digitsValue, Nat.mod_one]
  | succ w ih =>
    intro n
    obtain ⟨h1, h2, h3⟩ := ih (n / 10)
    refine ⟨by simp [padDigits, h1], ?_, ?_⟩
    · intro x hx
      simp only [padDigits, List.mem_append, List.mem_singleton] at hx
      rcases hx with hx | rfl
      · exact h2 x hx
      · have := Nat.mod_lt n (by norm_num : 10 > 0)
        simp only [isDigit, decide_eq_true_eq]
        omega
    · simp only [padDigits]
      rw [digitsValue_append, h3]
      simp only [digitsValue, List.foldl_cons, List.foldl_nil, List.length_singleton]
      have e : n % 10 ^ (w + 1) = n % 10 + 10 * (n / 10 % 10 ^ w) := by
        rw [pow_succ']; exact Nat.mod_mul
      have e2 : 48 + n % 10 - 48 = n % 10 := by omega
      rw [e, e2]
      ring

theorem renderDecimal_spec (j : Nat) (t : Int) :
    NumberLiteral (renderDecimal j t) ∧
      decimalValue (renderDecimal j t) = some ((j : ℚ) * 10 ^ t) := by
  unfold renderDecimal
  split
  · next ht =>
    obtain ⟨n1, n2⟩ := natDigits_spec (j * 10 ^ t.toNat)
    refine ⟨⟨_, n1, n2, Or.inl rfl⟩, ?_⟩
    rw [decimalValue_digits _ n1 n2, digitsValue_natDigits]
    congr 1
    obtain ⟨k, rfl⟩ : ∃ k : ℕ, t = k := ⟨t.toNat, by omega⟩
    simp
  · next ht =>
    obtain ⟨k, hk⟩ : ∃ k : ℕ, t = -((k + 1 : ℕ) : ℤ) := ⟨(-t).toNat - 1, by omega⟩
    have hw : (-t).toNat = k + 1 := by omega
    rw [hw]
    obtain ⟨n1, n2⟩ := natDigits_spec (j / 10 ^ (k + 1))
    obtain ⟨p1, p2, p3⟩ := padDigits_spec (k + 1) (j % 10 ^ (k + 1))
    have pne : padDigits (k + 1) (j % 10 ^ (k + 1)) ≠ [] := by
      intro h
      rw [h] at p1
      simp at p1
    refine ⟨⟨_, n1, n2, Or.inr ⟨_, pne, p2, rfl⟩⟩, ?_⟩
    rw [decimalValue_point _ _ n1 n2 pne p2, digitsValue_natDigits, p3, p1, Nat.mod_mod]
    congr 1
    rw [hk, zpow_neg, zpow_natCast]
    have h10 : ((10 : ℚ) ^ (k + 1)) ≠ 0 := by positivity
    have hdm := Nat.div_add_mod j (10 ^ (k + 1))
    have : (j : ℚ) = (10 ^ (k + 1) : ℕ) * (j / 10 ^ (k + 1) : ℕ) + (j % 10 ^ (k + 1) : ℕ) := by
      exact_mod_cast hdm.symm
    field_simp
    rw [this]
    push_cast
    ring

theorem decimalValue_nonneg (s : List Nat) (v : ℚ) (h : decimalValue s = some v) : 0 ≤ v := by
  unfold decimalValue at h
  simp only at h
  split at h
  · split at h
    · cases h
    · cases h; positivity
  · split at h
    · cases h; positivity
    · cases h

theorem parseValue_of_onGrid (x : ℚ) (hg : OnGrid x) (hfin : x < 2 ^ 1024) :
    parseValue x = some x := by
  unfold parseValue
  rw [round64_of_onGrid x hg, if_pos hfin]

theorem parseValue_spec (v r : ℚ) (hv : 0 ≤ v) (h : parseValue v = some r) :
    0 ≤ r ∧ OnGrid r ∧ r < 2 ^ 1024 := by
  unfold parseValue at h
  split at h
  · next hlt =>
    cases h
    exact ⟨(onGrid_round64 v hv).1, (onGrid_round64 v hv).2, hlt⟩
  · cases h

theorem exact_expansion_aux (m k E : ℕ) :
    (m : ℚ) * 2 ^ ((k : ℤ) - E) * 10 ^ E = ((m * 2 ^ k * 5 ^ E : ℕ) : ℚ) := by
  have h10 : (10 : ℚ) ^ E = 2 ^ E * 5 ^ E := by
    rw [← mul_pow]; norm_num
  have h2 : (2 : ℚ) ^ E ≠ 0 := pow_ne_zero _ (by norm_num)
  rw [zpow_sub₀ (by norm_num : (2 : ℚ) ≠ 0), zpow_natCast, zpow_natCast, h10]
  push_cast
  field_simp
  ring

theorem exact_expansion (x : ℚ) (E : ℕ) (hx0 : 0 ≤ x) (hg : OnGrid x)
    (hE : -(E : ℤ) ≤ ulpExp x) :
    ((⌊x * 10 ^ E⌋₊ : ℕ) : ℚ) * 10 ^ (-(E : ℤ)) = x := by
  obtain ⟨n, hn⟩ := hg
  have hpos := two_zpow_pos (ulpExp x)
  have hn0 : 0 ≤ n := by
    by_contra hneg
    have : (n : ℚ) < 0 := by exact_mod_cast (not_le.1 hneg)
    have : x < 0 := by rw [hn]; exact mul_neg_of_neg_of_pos this hpos
    linarith
  obtain ⟨m, rfl⟩ : ∃ m : ℕ, n = m := ⟨n.toNat, by omega⟩
  obtain ⟨k, hk⟩ : ∃ k : ℕ, ulpExp x = (k : ℤ) - E :=
    ⟨(ulpExp x + E).toNat, by omega⟩
  have hN : x * 10 ^ E = ((m * 2 ^ k * 5 ^ E : ℕ) : ℚ) := by
    rw [← exact_expansion_aux m k E, ← hk]
    have hn2 : x = (m : ℚ) * 2 ^ ulpExp x := by exact_mod_cast hn
    exact congrArg (fun y => y * (10 : ℚ) ^ E) hn2
  have h10 : (10 : ℚ) ^ E ≠ 0 := pow_ne_zero _ (by norm_num)
  rw [hN, Nat.floor_natCast, ← hN, zpow_neg, zpow_natCast, mul_inv_cancel_right₀ h10]

theorem fracLimit_le_ulpExp (x : ℚ) : -(fracLimit : ℤ) ≤ ulpExp x := by
  have := ulpExp_ge x
  simpa [fracLimit] using this

theorem firstOk_ok (x : ℚ) (t : Int) (a b j : Nat) (h : firstOk x t a b = some j) :
    parseValue ((j : ℚ) * 10 ^ t) = some x := by
  unfold firstOk at h
  split at h
  · next hc =>
    cases h
    simpa [candidateOk] using hc
  · split at h
    · next hc =>
      cases h
      simpa [candidateOk] using hc
    · cases h

theorem pickCandidate_ok (x : ℚ) (t : Int) (j : Nat) (h : pickCandidate x t = some j) :
    parseValue ((j : ℚ) * 10 ^ t) = some x := by
  unfold pickCandidate at h
  simp only at h
  split at h <;> exact firstOk_ok _ _ _ _ _ h

theorem findDecimal_ok (x : ℚ) (hx0 : 0 ≤ x) (hg : OnGrid x) (hfin : x < 2 ^ 1024) :
    ∀ i : Nat,
      parseValue (((findDecimal x i).1 : ℚ) * 10 ^ (findDecimal x i).2) = some x := by
  intro i
  induction i with
  | zero =>
    simp only [findDecimal]
    rw [exact_expansion x fracLimit hx0 hg (fracLimit_le_ulpExp x)]
    exact parseValue_of_onGrid x hg hfin
  | succ i ih =>
    simp only [findDecimal]
    cases hp : pickCandidate x ((i : Int) + 1 - fracLimit) with
    | none => exact ih
    | some j => exact pickCandidate_ok x _ j hp

theorem parse64_spec (s : List Nat) (x : F64) (h : parse64 s = some x) :
    0 ≤ x.val ∧ OnGrid x.val ∧ x.val < 2 ^ 1024 := by
  unfold parse64 at h
  cases hv : decimalValue s with
  | none => simp [hv] at h
  | some v =>
    cases hr : parseValue v with
    | none => simp [hv, hr] at h
    | some r =>
      simp only [hv, hr, Option.some.injEq] at h
      subst h
      exact parseValue_spec v r (decimalValue_nonneg s v hv) hr

theorem parse64_renderDecimal (x : F64) (j : Nat) (t : Int)
    (h : parseValue ((j : ℚ) * 10 ^ t) = some x.val) :
    parse64 (renderDecimal j t) = some x := by
  simp only [parse64, (renderDecimal_spec j t).2, h]

theorem Tokenize_formatFloat64 (x : F64) (hx0 : 0 ≤ x.val) (hg : OnGrid x.val)
    (hfin : x.val < 2 ^ 1024) :
    (Tokenize (formatFloat64 x) : Except (Err F64) (List (Token F64))) = .ok [mkNum x] := by
  have hneg : ¬ x.val < 0 := not_lt.2 hx0
  have hok := findDecimal_ok x.val hx0 hg hfin 1383
  have hp : (FloatParse.parseFloat
      (renderDecimal (findDecimal x.val 1383).1 (findDecimal x.val 1383).2) : Option F64)
        = some x := parse64_renderDecimal x _ _ hok
  simp only [formatFloat64, hneg, if_false]
  rw [Tokenize_literal _ (renderDecimal_spec _ _).1, hp]

theorem Tokenize_formatInt64 (x : F64) (hx0 : 0 ≤ x.val) (hg : OnGrid x.val)
    (hint : FloatFormat.isIntegral x = true) (hlt : x.val < 2 ^ 63) :
    (Tokenize (formatInt (FloatFormat.toInt64 x)) : Except (Err F64) (List (Token F64)))
      = .ok [mkNum x] := by
  have hn : ((truncQ x.val : Int) : ℚ) = x.val := by
    change decide (((truncQ x.val : Int) : ℚ) = x.val) = true at hint
    simpa using hint
  have hn0 : 0 ≤ truncQ x.val := by
    have : (0 : ℚ) ≤ ((truncQ x.val : Int) : ℚ) := by rw [hn]; exact hx0
    exact_mod_cast this
  have hn63 : truncQ x.val < 2 ^ 63 := by
    have : ((truncQ x.val : Int) : ℚ) < ((2 ^ 63 : Int) : ℚ) := by
      rw [hn]; exact_mod_cast hlt
    exact_mod_cast this
  have hconv : FloatFormat.toInt64 x = truncQ x.val := by
    change (if -2 ^ 63 ≤ truncQ x.val ∧ truncQ x.val < 2 ^ 63 then truncQ x.val
      else -2 ^ 63) = truncQ x.val
    rw [if_pos ⟨by omega, hn63⟩]
  have hfmt : formatInt (truncQ x.val) = natDigits (truncQ x.val).toNat := by
    simp only [formatInt, not_lt.2 hn0, if_false]
  obtain ⟨n1, n2⟩ := natDigits_spec (truncQ x.val).toNat
  have hval : (((truncQ x.val).toNat : ℕ) : ℚ) = x.val := by
    have h1 : (((truncQ x.val).toNat : ℕ) : Int) = truncQ x.val := Int.toNat_of_nonneg hn0
    have h2 : (((truncQ x.val).toNat : ℕ) : ℚ) = ((truncQ x.val : Int) : ℚ) := by
      exact_mod_cast h1
    exact h2.trans hn
  have hfin : x.val < 2 ^ 1024 :=
    lt_trans hlt (by norm_num)
  have hp : (FloatParse.parseFloat (natDigits (truncQ x.val).toNat) : Option F64)
      = some x := by
    change parse64 _ = some x
    simp only [parse64, decimalValue_digits _ n1 n2, digitsValue_natDigits, hval,
      parseValue_of_onGrid x.val hg hfin]
  rw [hconv, hfmt, Tokenize_literal _ ⟨_, n1, n2, Or.inl rfl⟩, hp]

/-- C15, amended: for every number literal `s` (a non-empty run of digits, optionally
followed by `'.'` and a non-empty run of digits) that `strconv.ParseFloat` accepts, with
value `x`, `Tokenize s` returns the single number token with value `x`, and, unless `x` is
integral and not below `2^63`, tokenizing the rendering of that token (`FormatTokens`, that
is `formatNumber x`) again returns the single number token with value `x`. -/
theorem Tokenize_number_round_trip (s : List Nat) (x : F64) (hs : NumberLiteral s)
    (hp : FloatParse.parseFloat s = some x) :
    Tokenize s = .ok [mkNum x] ∧
    ((FloatFormat.isIntegral x = true → x.val < 2 ^ 63) →
      Tokenize (FormatTokens [mkNum x]) = .ok [mkNum x]) := by
  obtain ⟨hx0, hg, hfin⟩ := parse64_spec s x hp
  refine ⟨by rw [Tokenize_literal s hs, hp], fun hslip => ?_⟩
  rw [FormatTokens_single]
  unfold formatNumber
  cases hi : FloatFormat.isIntegral x with
  | true =>
    simp only [if_true]
    exact Tokenize_formatInt64 x hx0 hg hi (hslip hi)
  | false =>
    simp only [Bool.false_eq_true, if_false]
    exact Tokenize_formatFloat64 x hx0 hg hfin

theorem parse64_two_point_five : parse64 [50, 46, 53] = some ⟨5 / 2⟩ := by
  have hd : decimalValue [50, 46, 53] = some (5 / 2) := by
    have := decimalValue_point [50] [53] (by simp) (by decide) (by simp) (by decide)
    have e1 : digitsValue [50] = 2 := by decide
    have e2 : digitsValue [53] = 5 := by decide
    rw [e1, e2] at this
    rw [show ([50, 46, 53] : List Nat) = [50] ++ [46] ++ [53] from rfl, this]
    norm_num
  have hg : OnGrid (5 / 2) :=
    onGrid_of (5 / 2) 5 (-1) (by norm_num) (by norm_num) (by norm_num) (by norm_num)
  simp only [parse64, hd, parseValue_of_onGrid (5 / 2) hg (by norm_num)]

/-- Witness of C15, amended: `2.5` gives the single number token with value `5 / 2`, and
the rendering of that token gives the same token again. -/
theorem Tokenize_number_round_trip_witness :
    NumberLiteral [50, 46, 53] ∧
    (FloatParse.parseFloat [50, 46, 53] : Option F64) = some ⟨5 / 2⟩ ∧
    (Tokenize [50, 46, 53] : Except (Err F64) (List (Token F64))) = .ok [mkNum ⟨5 / 2⟩] ∧
    (FloatFormat.isIntegral (⟨5 / 2⟩ : F64) = true → (⟨5 / 2⟩ : F64).val < 2 ^ 63) ∧
    (Tokenize (FormatTokens [mkNum (⟨5 / 2⟩ : F64)]) : Except (Err F64) (List (Token F64)))
      = .ok [mkNum ⟨5 / 2⟩] :=
  have hlit : NumberLiteral [50, 46, 53] :=
    ⟨[50], by simp, by decide, Or.inr ⟨[53], by simp, by decide, rfl⟩⟩
  have hslip : FloatFormat.isIntegral (⟨5 / 2⟩ : F64) = true
      → (⟨5 / 2⟩ : F64).val < 2 ^ 63 := fun _ => by norm_num
  ⟨hlit, parse64_two_point_five,
    (Tokenize_number_round_trip [50, 46, 53] ⟨5 / 2⟩ hlit parse64_two_point_five).1,
    hslip,
    (Tokenize_number_round_trip [50, 46, 53] ⟨5 / 2⟩ hlit parse64_two_point_five).2 hslip⟩

/-! ## The two failures of the round trip in the model of `float64` -/

theorem round64_ge_zpow_log (q : ℚ) (hq : 0 < q) (hL : -1022 ≤ Int.log 2 q) :
    (2 : ℚ) ^ Int.log 2 q ≤ round64 q := by
  have he : ulpExp q = Int.log 2 q - 52 := by
    unfold ulpExp
    exact max_eq_left (by omega)
  have hpos := two_zpow_pos (ulpExp q)
  have hlow : ((2 : ℕ) : ℚ) ^ Int.log 2 q ≤ q := Int.zpow_log_le_self (by norm_num) hq
  have hsplit : (2 : ℚ) ^ Int.log 2 q = 2 ^ (52 : ℕ) * 2 ^ ulpExp q := by
    rw [he, ← zpow_natCast, ← zpow_add₀ (by norm_num : (2 : ℚ) ≠ 0)]
    congr 1
    push_cast
    ring
  have hr : ((2 ^ 52 : Int) : ℚ) ≤ q / 2 ^ ulpExp q := by
    rw [le_div_iff₀ hpos]
    have hc : ((2 ^ 52 : Int) : ℚ) = 2 ^ (52 : ℕ) := by norm_cast
    rw [hc, ← hsplit]
    exact_mod_cast hlow
  have hfl : (2 ^ 52 : Int) ≤ ⌊q / 2 ^ ulpExp q⌋ := Int.le_floor.2 hr
  have hm : (2 ^ 52 : Int) ≤ roundHalfEven (q / 2 ^ ulpExp q) :=
    le_trans hfl (roundHalfEven_bounds _).1
  unfold round64
  rw [hsplit]
  apply mul_le_mul_of_nonneg_right _ hpos.le
  exact_mod_cast hm

theorem decimalValue_one_zeros (n : Nat) :
    decimalValue (49 :: List.replicate n 48) = some ((10 : ℚ) ^ n) := by
  have hall : ∀ x ∈ 49 :: List.replicate n 48, isDigit x = true := by
    intro x hx
    rcases List.mem_cons.1 hx with rfl | hx
    · rfl
    · rw [List.eq_of_mem_replicate hx]; rfl
  have hv : digitsValue (49 :: List.replicate n 48) = 10 ^ n := by
    simp only [digitsValue, List.foldl_cons]
    rw [digitsValue_zeros]
    norm_num
  rw [decimalValue_digits _ (List.cons_ne_nil _ _) hall, hv]
  push_cast
  rfl

theorem parse64_of_value (s : List Nat) (v r : ℚ) (hv : decimalValue s = some v)
    (hr : parseValue v = some r) : parse64 s = some ⟨r⟩ := by
  unfold parse64
  rw [hv]
  simp only [hr]

theorem parse64_of_range (s : List Nat) (v : ℚ) (hv : decimalValue s = some v)
    (hr : parseValue v = none) : parse64 s = none := by
  unfold parse64
  rw [hv]
  simp only [hr]

theorem round64_ge_pow (q : ℚ) (n : Nat) (h : (2 : ℚ) ^ n ≤ q) : (2 : ℚ) ^ n ≤ round64 q := by
  have hq : 0 < q := lt_of_lt_of_le (by positivity) h
  have hlog : (n : ℤ) ≤ Int.log 2 q := by
    rw [← Int.zpow_le_iff_le_log (by norm_num) hq, Nat.cast_ofNat, zpow_natCast]
    exact h
  have h1 := round64_ge_zpow_log q hq (by omega)
  have h2 : (2 : ℚ) ^ (n : ℤ) ≤ 2 ^ Int.log 2 q := zpow_le_zpow_right₀ (by norm_num) hlog
  rw [zpow_natCast] at h2
  exact h2.trans h1

theorem parse64_overflow : parse64 (49 :: List.replicate 309 48) = none := by
  have h3 : ¬ round64 ((10 : ℚ) ^ 309) < 2 ^ 1024 :=
    not_lt.2 (round64_ge_pow _ 1024 (by norm_num))
  have hp : parseValue ((10 : ℚ) ^ 309) = none := by
    unfold parseValue
    rw [if_neg h3]
  exact parse64_of_range _ _ (decimalValue_one_zeros 309) hp

theorem truncQ_natCast (n : Nat) : truncQ (n : ℚ) = n := by
  simp [truncQ]

theorem parse64_ten_pow_19 :
    parse64 (49 :: List.replicate 19 48) = some ⟨(10 : ℚ) ^ 19⟩ := by
  have hg : OnGrid ((10 : ℚ) ^ 19) :=
    onGrid_of _ (5 ^ 19) 19 (by positivity) (by norm_num) (by norm_num) (by norm_num)
  have hp := parseValue_of_onGrid _ hg (by norm_num)
  exact parse64_of_value _ _ _ (decimalValue_one_zeros 19) hp

theorem truncQ_ten_pow_19 : truncQ ((10 : ℚ) ^ 19) = 10 ^ 19 := by
  have h := truncQ_natCast (10 ^ 19)
  have hc : (((10 ^ 19 : ℕ)) : ℚ) = (10 : ℚ) ^ 19 := by push_cast; rfl
  rw [hc] at h
  rw [h]
  push_cast

theorem Tokenize_minus_head {F : Type} [FloatZero F] [FloatParse F] (rest : List Nat)
    (x : F) : (Tokenize (45 :: rest) : Except (Err F) (List (Token F))) ≠ .ok [mkNum x] := by
  intro h
  rw [Tokenize_eq, tokenizeFrom_cons] at h
  have h45 : isOpByte 45 = true := by decide
  have hsp : isSpace 45 = false := by decide
  simp only [hsp, h45, if_true, if_false, Bool.false_eq_true] at h
  norm_num at h
  obtain ⟨r, e1, _⟩ := tokenizeFrom_shift rest.length rest (le_refl _) _ _ _ h
  simp only [List.nil_append, List.singleton_append, List.cons.injEq] at e1
  have := congrArg Token.Kind e1.1
  simp [mkNum, mkOp] at this

/-- The overflow of `float64` in the model: the literal `1` followed by 309 zeros is
rejected by `ParseFloat`, so `Tokenize` fails with `InvalidNumber` at position 0. -/
theorem Tokenize_overflow_F64 :
    (Tokenize (49 :: List.replicate 309 48) : Except (Err F64) (List (Token F64)))
      = .error (.AtPos 0 (.InvalidNumber (49 :: List.replicate 309 48))) := by
  have hlit : NumberLiteral (49 :: List.replicate 309 48) := by
    refine ⟨49 :: List.replicate 309 48, List.cons_ne_nil _ _, ?_, Or.inl rfl⟩
    intro x hx
    rcases List.mem_cons.1 hx with rfl | hx
    · rfl
    · rw [List.eq_of_mem_replicate hx]; rfl
  have hp : (FloatParse.parseFloat (49 :: List.replicate 309 48) : Option F64) = none :=
    parse64_overflow
  rw [Tokenize_literal _ hlit, hp]

/-- The overflow of `int64` in `formatNumber`: the literal `10000000000000000000` is read
as `10^19`, which is integral and not below `2^63`; its rendering starts with `'-'`, and
tokenizing the rendering does not return the single number token with value `10^19`. -/
theorem formatNumber_int64_overflow :
    (FloatParse.parseFloat (49 :: List.replicate 19 48) : Option F64)
      = some ⟨(10 : ℚ) ^ 19⟩ ∧
    FloatFormat.isIntegral (⟨(10 : ℚ) ^ 19⟩ : F64) = true ∧
    formatNumber (⟨(10 : ℚ) ^ 19⟩ : F64) = 45 :: natDigits (2 ^ 63) ∧
    (Tokenize (FormatTokens [mkNum (⟨(10 : ℚ) ^ 19⟩ : F64)])
      : Except (Err F64) (List (Token F64))) ≠ .ok [mkNum ⟨(10 : ℚ) ^ 19⟩] := by
  have hint : FloatFormat.isIntegral (⟨(10 : ℚ) ^ 19⟩ : F64) = true := by
    change decide (((truncQ ((10 : ℚ) ^ 19) : Int) : ℚ) = (10 : ℚ) ^ 19) = true
    rw [truncQ_ten_pow_19, decide_eq_true_iff]
    push_cast
    rfl
  have hconv : FloatFormat.toInt64 (⟨(10 : ℚ) ^ 19⟩ : F64) = -2 ^ 63 := by
    change (if -2 ^ 63 ≤ truncQ ((10 : ℚ) ^ 19) ∧ truncQ ((10 : ℚ) ^ 19) < 2 ^ 63
      then truncQ ((10 : ℚ) ^ 19) else -2 ^ 63) = -2 ^ 63
    rw [truncQ_ten_pow_19, if_neg]
    norm_num
  have hfmt : formatNumber (⟨(10 : ℚ) ^ 19⟩ : F64) = 45 :: natDigits (2 ^ 63) := by
    unfold formatNumber
    rw [hint, if_pos rfl, hconv]
    simp [formatInt]
  refine ⟨parse64_ten_pow_19, hint, hfmt, ?_⟩
  rw [FormatTokens_single, hfmt]
  exact Tokenize_minus_head _ _

/-- Counterexample to C15 as stated: the run of 310 digits `1000...0` is a number literal,
but its value `10^309` is out of the range of `float64`, so `ParseFloat` rejects it and
`Tokenize` fails with `InvalidNumber` instead of returning a single number token. -/
theorem Tokenize_number_overflow :
    NumberLiteral (49 :: List.replicate 309 48) ∧
    (Tokenize (49 :: List.replicate 309 48) : Except (Err ℚ) (List (Token ℚ)))
      = .error (.AtPos 0 (.InvalidNumber (49 :: List.replicate 309 48))) ∧
    ¬ ∃ t : Token ℚ, Tokenize (49 :: List.replicate 309 48) = .ok [t] := by
  have hlit : NumberLiteral (49 :: List.replicate 309 48) := by
    refine ⟨49 :: List.replicate 309 48, List.cons_ne_nil _ _, ?_, Or.inl rfl⟩
    intro x hx
    rcases List.mem_cons.1 hx with rfl | hx
    · rfl
    · rw [List.eq_of_mem_replicate hx]; rfl
  have hfail : (Tokenize (49 :: List.replicate 309 48) : Except (Err ℚ) (List (Token ℚ)))
      = .error (.AtPos 0 (.InvalidNumber (49 :: List.replicate 309 48))) := by
    rw [Tokenize_literal _ hlit]
    have : (FloatParse.parseFloat (49 :: List.replicate 309 48) : Option ℚ) = none :=
      ratParse_overflow
    rw [this]
  refine ⟨hlit, hfail, ?_⟩
  rintro ⟨t, ht⟩
  rw [hfail] at ht
  cases ht

end KP
